import Mathlib

/-!
Verification of the content-addressed blob store specified for the
helia-ipfs-dockerized repository.

The repository itself is a thin Express facade (`src/server.js`) over the
Helia IPFS library: the chunker, block store, DAG builder, CID codec and
retrieval engine live in the wrapped library, not under `src/`.  Following
the specification (which defines exactly that core), the core components
below are modelled from the spec, while the HTTP endpoint behaviour
(`/add/text`, `/add/file`, `/add/json`, `/add/raw`, `/cat/:cid`, `/status`,
the `trackCID` statistics helper) is translated from `src/server.js`.

Bytes are modelled as `List Nat`, digests as `Nat` produced by an abstract
hash function `H : List Nat → Nat`; theorems assume `H` injective (the
spec's collision-resistance idealisation) and witnesses instantiate `H`
with an explicit injective pairing hash.  The retrieval walker takes an
explicit recursion-depth fuel (a shallow-embedding artifact); theorems
quantify over all sufficiently large fuels.
-/

/-- Byte sequences are lists of naturals. -/
abbrev Bytes := List Nat

/-- Modelled from the spec: a Digest is the fixed-length output of the
configured cryptographic hash, represented abstractly as a natural. -/
abbrev Digest := Nat

/-- Modelled from the spec: the error taxonomy of section 7 restricted to
the errors the core operations can raise. -/
inductive CoreErr where
  | invalidCID : CoreErr
  | notFound : CoreErr
  | corruption : CoreErr
deriving DecidableEq

/-- Modelled from the spec: default maximum chunk size, 256 KiB. -/
def maxChunkSize : Nat := 262144

/-- Modelled from the spec: fixed fan-out bound for internal DAG nodes. -/
def fanOut : Nat := 174

/-- Fixed-size splitting with explicit fuel (the fuel is the input length,
which always suffices; fuel keeps the recursion structural). -/
def chunksOfAux {α : Type} (k : Nat) : Nat → List α → List (List α)
  | 0, l => [l]
  | fuel + 1, l =>
    if l.length ≤ k ∨ k = 0 then [l]
    else l.take k :: chunksOfAux k fuel (l.drop k)

/-- Modelled from the spec, section 4.1: fixed-size chunking; every slice
has at most `k` elements, the final slice may be shorter, and zero-length
input yields exactly one empty chunk. -/
def chunksOf {α : Type} (k : Nat) (l : List α) : List (List α) :=
  chunksOfAux k l.length l

/-- An explicit injective hash used to instantiate witnesses: an iterated
Cantor pairing of the byte list. -/
def listHash : List Nat → Nat
  | [] => 0
  | a :: t => Nat.pair a (listHash t) + 1

theorem listHash_injective : Function.Injective listHash := by
  intro x
  induction x with
  | nil =>
    intro y h
    cases y with
    | nil => rfl
    | cons b u => simp [listHash] at h
  | cons a t ih =>
    intro y h
    cases y with
    | nil => simp [listHash] at h
    | cons b u =>
      simp only [listHash, Nat.add_right_cancel_iff] at h
      obtain ⟨h1, h2⟩ := Nat.pair_eq_pair.mp h
      rw [h1, ih h2]

/-- Modelled from the spec, section 3: a DAG node is either a leaf wrapping
one chunk or an internal node holding an ordered sequence of links
`(digest, byte length of the linked subtree)`. -/
inductive Node where
  | leaf : Bytes → Node
  | internal : List (Digest × Nat) → Node

/-- Serialisation of a link list: digests and lengths interleaved. -/
def encLinks : List (Digest × Nat) → List Nat
  | [] => []
  | (d, n) :: t => d :: n :: encLinks t

/-- Parsing of a serialised link list. -/
def decLinks : List Nat → Option (List (Digest × Nat))
  | [] => some []
  | d :: n :: t => (decLinks t).map (fun l => (d, n) :: l)
  | _ => none

/-- Node serialisation: a tag byte (0 leaf, 1 internal) followed by the
payload.  Blocks persisted to the Block Store are node serialisations. -/
def Node.encode : Node → List Nat
  | .leaf b => 0 :: b
  | .internal ls => 1 :: encLinks ls

/-- Node parsing, the inverse of `Node.encode`. -/
def Node.decode? (b : List Nat) : Option Node :=
  match b with
  | 0 :: rest => some (.leaf rest)
  | 1 :: rest => (decLinks rest).map Node.internal
  | _ => none

theorem decLinks_encLinks (ls : List (Digest × Nat)) :
    decLinks (encLinks ls) = some ls := by
  induction ls with
  | nil => rfl
  | cons p t ih => cases p; simp [encLinks, decLinks, ih]

theorem decode_encode_node (n : Node) : Node.decode? n.encode = some n := by
  cases n with
  | leaf b => rfl
  | internal ls => simp [Node.encode, Node.decode?, decLinks_encLinks]

theorem node_encode_injective : Function.Injective Node.encode := by
  intro n1 n2 h
  have h1 := decode_encode_node n1
  rw [h, decode_encode_node n2] at h1
  exact (Option.some.injEq _ _ ▸ h1).symm ▸ rfl

/-- Modelled from the spec, section 3: a Block Store is a `digest → bytes`
mapping, modelled as an association list. -/
abbrev Store := List (Digest × Bytes)

/-- Association-list lookup for the Block Store. -/
def lookupStore : Store → Digest → Option Bytes
  | [], _ => none
  | (d, b) :: t, d' => if d = d' then some b else lookupStore t d'

/-- Modelled from the spec, section 4.2: `Put` is idempotent; if the digest
is already present it verifies the stored length matches (a mismatch
signals `CorruptionError`) and returns success without rewriting. -/
def putBlock (s : Store) (d : Digest) (b : Bytes) : Except CoreErr Store :=
  match lookupStore s d with
  | some b0 => if b0.length = b.length then .ok s else .error .corruption
  | none => .ok ((d, b) :: s)

/-- Modelled from the spec, sections 4.2 and 7: `Get` fails with
`NotFoundError` when absent, and with `CorruptionError` when the stored
content's recomputed digest mismatches its key. -/
def getBlock (H : Bytes → Digest) (s : Store) (d : Digest) :
    Except CoreErr Bytes :=
  match lookupStore s d with
  | none => .error .notFound
  | some b => if H b = d then .ok b else .error .corruption

/-- Modelled from the spec, section 4.2: `Has` has no side effects. -/
def hasBlock (s : Store) (d : Digest) : Bool :=
  (lookupStore s d).isSome

/-- A store is well hashed when every entry is keyed by the digest of its
content; stores produced by the builder always are. -/
def wellHashed (H : Bytes → Digest) (s : Store) : Prop :=
  ∀ d b, lookupStore s d = some b → H b = d

/-- Store extension order: every association of the smaller store is kept
in the larger one (content-addressed stores are write-once). -/
def storeLE (s s' : Store) : Prop :=
  ∀ d b, lookupStore s d = some b → lookupStore s' d = some b

theorem storeLE_refl (s : Store) : storeLE s s := fun _ _ h => h

theorem storeLE_trans {s1 s2 s3 : Store} (h1 : storeLE s1 s2)
    (h2 : storeLE s2 s3) : storeLE s1 s3 :=
  fun d b h => h2 d b (h1 d b h)

theorem wellHashed_nil (H : Bytes → Digest) : wellHashed H [] := by
  intro d b h
  simp [lookupStore] at h

/-- Persist one node under the digest of its serialisation, returning that
digest; a no-op when the block is already stored. -/
def putNode (H : Bytes → Digest) (s : Store) (n : Node) :
    Except CoreErr (Digest × Store) :=
  match putBlock s (H n.encode) n.encode with
  | .error e => .error e
  | .ok s' => .ok (H n.encode, s')

/-- Modelled from the spec, section 4.3: wrap each chunk as a leaf node,
persist it, and record its `(digest, length)` entry in input order. -/
def putLeaves (H : Bytes → Digest) : List Bytes → Store →
    Except CoreErr (List (Digest × Nat) × Store)
  | [], s => .ok ([], s)
  | c :: cs, s =>
    match putNode H s (.leaf c) with
    | .error e => .error e
    | .ok (d, s1) =>
      match putLeaves H cs s1 with
      | .error e => .error e
      | .ok (es, s2) => .ok ((d, c.length) :: es, s2)

/-- Total byte length covered by a link group. -/
def sumLens (g : List (Digest × Nat)) : Nat :=
  (g.map Prod.snd).sum

/-- Persist one internal node per link group, recording the new
`(digest, length)` entries in group order. -/
def putGroups (H : Bytes → Digest) : List (List (Digest × Nat)) → Store →
    Except CoreErr (List (Digest × Nat) × Store)
  | [], s => .ok ([], s)
  | g :: gs, s =>
    match putNode H s (.internal g) with
    | .error e => .error e
    | .ok (d, s1) =>
      match putGroups H gs s1 with
      | .error e => .error e
      | .ok (es, s2) => .ok ((d, sumLens g) :: es, s2)

/-- Modelled from the spec, section 4.3: collapse a level of entries into
internal nodes of at most `fanOut` links each, repeatedly, until a single
root digest remains.  A single entry is already the root.  The fuel bounds
the number of levels; any fuel at least the entry count suffices. -/
def buildLevel (H : Bytes → Digest) : Nat → List (Digest × Nat) → Store →
    Except CoreErr (Digest × Store)
  | _, [], _ => .error .notFound
  | _, [e], s => .ok (e.1, s)
  | 0, _ :: _ :: _, _ => .error .notFound
  | fuel + 1, e1 :: e2 :: rest, s =>
    match putGroups H (chunksOf fanOut (e1 :: e2 :: rest)) s with
    | .error e => .error e
    | .ok (es', s') => buildLevel H fuel es' s'

/-- Modelled from the spec, section 9: codec identifiers as a closed
tagged variant — raw leaf encoding versus DAG-node encoding. -/
inductive CodecTag where
  | raw : CodecTag
  | dagPB : CodecTag
deriving DecidableEq

/-- Modelled from the spec, section 9: hash identifiers as a closed tagged
variant. -/
inductive HashTag where
  | sha2 : HashTag
  | blake : HashTag
deriving DecidableEq

/-- Modelled from the spec, section 3: a CID is a self-describing wrapper
around a digest, tagging the codec and hash function used. -/
structure CIDv where
  codec : CodecTag
  hashT : HashTag
  digest : Digest
deriving DecidableEq

/-- Lowercase hex digit for a value below 16. -/
def hexDigitChar (d : Nat) : Char :=
  if d < 10 then Char.ofNat (48 + d) else Char.ofNat (87 + d)

/-- Hex digit value of a character; accepts digits and lowercase a-f. -/
def hexVal? (c : Char) : Option Nat :=
  if '0' ≤ c ∧ c ≤ '9' then some (c.toNat - 48)
  else if 'a' ≤ c ∧ c ≤ 'f' then some (c.toNat - 87)
  else none

/-- Big-endian hex rendering with explicit fuel (the value itself always
suffices as fuel; fuel keeps the recursion structural). -/
def toHexAux : Nat → Nat → List Char → List Char
  | 0, _, acc => acc
  | fuel + 1, n, acc =>
    if n = 0 then acc else toHexAux fuel (n / 16) (hexDigitChar (n % 16) :: acc)

/-- Canonical lowercase hex rendering of a natural. -/
def toHex (n : Nat) : List Char := if n = 0 then ['0'] else toHexAux n n []

/-- Hex parsing: every character must be a valid digit and the digit
string must be non-empty; no partial success. -/
def parseHex (l : List Char) : Option Nat :=
  if l = [] then none
  else
    match l.reverse.mapM hexVal? with
    | some ds => some (Nat.ofDigits 16 ds)
    | none => none

/-- Character of a codec tag. -/
def codecChar : CodecTag → Char
  | .raw => 'r'
  | .dagPB => 'p'

/-- Character of a hash tag. -/
def hashChar : HashTag → Char
  | .sha2 => 's'
  | .blake => 'b'

/-- Codec tag of a (lowercased) character, absent when unknown. -/
def codecOfChar (c : Char) : Option CodecTag :=
  if c = 'r' then some .raw else if c = 'p' then some .dagPB else none

/-- Hash tag of a (lowercased) character, absent when unknown. -/
def hashOfChar (c : Char) : Option HashTag :=
  if c = 's' then some .sha2 else if c = 'b' then some .blake else none

/-- Modelled from the spec, section 4.4: encode a digest with its codec
and hash tags into a canonical lowercase CID string. -/
def encodeCID (x : CIDv) : List Char :=
  codecChar x.codec :: hashChar x.hashT :: toHex x.digest

/-- Modelled from the spec, section 4.4: decode a CID string, lowercasing
the input first (case-insensitive); malformed input (wrong length,
unknown tag, invalid digit) fails with `InvalidCIDError` and decoding
never partially succeeds. -/
def decodeCID (l : List Char) : Except CoreErr CIDv :=
  match l.map Char.toLower with
  | c1 :: c2 :: rest =>
    match codecOfChar c1, hashOfChar c2, parseHex rest with
    | some ct, some ht, some n => .ok ⟨ct, ht, n⟩
    | _, _, _ => .error .invalidCID
  | _ => .error .invalidCID

/-- Modelled from the spec, section 4.6: `AddBytes` chunks the input,
persists the leaves, builds the DAG and returns the root CID, tagged raw
for a single-chunk (leaf) root and dagPB otherwise. -/
def AddBytes (H : Bytes → Digest) (s : Store) (b : Bytes) :
    Except CoreErr (List Char × Store) :=
  match putLeaves H (chunksOf maxChunkSize b) s with
  | .error e => .error e
  | .ok (es, s1) =>
    match buildLevel H es.length es s1 with
    | .error e => .error e
    | .ok (d, s2) =>
      .ok (encodeCID ⟨if es.length = 1 then .raw else .dagPB, .sha2, d⟩, s2)

/-- Left-to-right resolution of a link list, concatenating the resolved
bytes; the first failure aborts the walk. -/
def catLinksGo (f : Digest → Except CoreErr Bytes) :
    List (Digest × Nat) → Except CoreErr Bytes
  | [] => .ok []
  | (d, _) :: ls =>
    match f d with
    | .error e => .error e
    | .ok b1 =>
      match catLinksGo f ls with
      | .error e => .error e
      | .ok rest => .ok (b1 ++ rest)

/-- Modelled from the spec, section 4.5: resolve a digest to bytes by
fetching its block, decoding the node, and resolving links depth-first
left to right; an undecodable block is corrupt.  The fuel bounds the
recursion depth. -/
def catDigest (H : Bytes → Digest) : Nat → Store → Digest →
    Except CoreErr Bytes
  | 0, _, _ => .error .notFound
  | fuel + 1, s, d =>
    match getBlock H s d with
    | .error e => .error e
    | .ok bs =>
      match Node.decode? bs with
      | none => .error .corruption
      | some (.leaf c) => .ok c
      | some (.internal links) =>
        catLinksGo (fun d' => catDigest H fuel s d') links

/-- Modelled from the spec, sections 4.5 and 4.6: `Cat` decodes the CID
(after lowercasing, as the server does) and resolves the digest. -/
def catCID (H : Bytes → Digest) (fuel : Nat) (s : Store) (l : List Char) :
    Except CoreErr Bytes :=
  match decodeCID l with
  | .error e => .error e
  | .ok x => catDigest H fuel s x.digest

theorem chunksOfAux_flatten {α : Type} (k : Nat) :
    ∀ (fuel : Nat) (l : List α), (chunksOfAux k fuel l).flatten = l := by
  intro fuel
  induction fuel with
  | zero => intro l; simp [chunksOfAux]
  | succ f ih =>
    intro l
    by_cases h : l.length ≤ k ∨ k = 0
    · simp [chunksOfAux, h]
    · simp [chunksOfAux, h, ih (l.drop k)]

theorem chunksOf_flatten {α : Type} (k : Nat) (l : List α) :
    (chunksOf k l).flatten = l :=
  chunksOfAux_flatten k l.length l

theorem chunksOfAux_ne_nil {α : Type} (k fuel : Nat) (l : List α) :
    chunksOfAux k fuel l ≠ [] := by
  cases fuel with
  | zero => simp [chunksOfAux]
  | succ f =>
    by_cases h : l.length ≤ k ∨ k = 0 <;> simp [chunksOfAux, h]

theorem chunksOf_ne_nil {α : Type} (k : Nat) (l : List α) :
    chunksOf k l ≠ [] :=
  chunksOfAux_ne_nil k l.length l

theorem chunksOfAux_small {α : Type} {k : Nat} (fuel : Nat) {l : List α}
    (h : l.length ≤ k) : chunksOfAux k fuel l = [l] := by
  cases fuel with
  | zero => rfl
  | succ f => simp [chunksOfAux, Or.inl h]

theorem chunksOfAux_length_lt {α : Type} {k : Nat} (hk : 2 ≤ k) :
    ∀ (fuel : Nat) (l : List α), 2 ≤ l.length → l.length ≤ fuel →
      (chunksOfAux k fuel l).length < l.length := by
  intro fuel
  induction fuel with
  | zero => intro l h2 h0; omega
  | succ f ih =>
    intro l h2 hle
    by_cases h : l.length ≤ k ∨ k = 0
    · rw [chunksOfAux_small (f + 1) (by omega)]
      simpa using h2
    · push_neg at h
      obtain ⟨hlk, _⟩ := h
      have hnot : ¬(l.length ≤ k ∨ k = 0) := by omega
      simp only [chunksOfAux, hnot, if_false, List.length_cons]
      by_cases h3 : 2 ≤ (l.drop k).length
      · have hdf : (l.drop k).length ≤ f := by
          simp only [List.length_drop]; omega
        have := ih (l.drop k) h3 hdf
        simp only [List.length_drop] at this ⊢
        omega
      · have hsm : (l.drop k).length ≤ k := by omega
        rw [chunksOfAux_small f hsm]
        simp only [List.length_singleton]
        omega

theorem chunksOf_length_lt {α : Type} {k : Nat} (hk : 2 ≤ k) (l : List α)
    (h2 : 2 ≤ l.length) : (chunksOf k l).length < l.length :=
  chunksOfAux_length_lt hk l.length l h2 (Nat.le_refl _)

theorem chunksOfAux_length_le {α : Type} (k : Nat) :
    ∀ (fuel : Nat) (l : List α),
      (chunksOfAux k fuel l).length ≤ l.length + 1 := by
  intro fuel
  induction fuel with
  | zero => intro l; simp [chunksOfAux]
  | succ f ih =>
    intro l
    by_cases h : l.length ≤ k ∨ k = 0
    · simp [chunksOfAux, h]
    · push_neg at h
      have hnot : ¬(l.length ≤ k ∨ k = 0) := by omega
      simp only [chunksOfAux, hnot, if_false, List.length_cons]
      have := ih (l.drop k)
      simp only [List.length_drop] at this
      omega

theorem chunksOf_length_le {α : Type} (k : Nat) (l : List α) :
    (chunksOf k l).length ≤ l.length + 1 :=
  chunksOfAux_length_le k l.length l

theorem chunksOfAux_forall2 {α β : Type} {R : α → β → Prop} (k : Nat) :
    ∀ (fuel : Nat) {l1 : List α} {l2 : List β}, List.Forall₂ R l1 l2 →
      List.Forall₂ (List.Forall₂ R) (chunksOfAux k fuel l1)
        (chunksOfAux k fuel l2) := by
  intro fuel
  induction fuel with
  | zero =>
    intro l1 l2 h
    exact List.Forall₂.cons h List.Forall₂.nil
  | succ f ih =>
    intro l1 l2 h
    have hlen := h.length_eq
    by_cases hc : l1.length ≤ k ∨ k = 0
    · have hc2 : l2.length ≤ k ∨ k = 0 := by omega
      simp only [chunksOfAux, hc, hc2, if_true]
      exact List.Forall₂.cons h List.Forall₂.nil
    · have hc2 : ¬(l2.length ≤ k ∨ k = 0) := by omega
      simp only [chunksOfAux, hc, hc2, if_false]
      exact List.Forall₂.cons (List.forall₂_take k h) (ih (List.forall₂_drop k h))

theorem chunksOf_forall2 {α β : Type} {R : α → β → Prop} (k : Nat)
    {l1 : List α} {l2 : List β} (h : List.Forall₂ R l1 l2) :
    List.Forall₂ (List.Forall₂ R) (chunksOf k l1) (chunksOf k l2) := by
  unfold chunksOf
  rw [h.length_eq]
  exact chunksOfAux_forall2 k l2.length h

theorem getBlock_mono {H : Bytes → Digest} {s s' : Store} {d : Digest}
    {b : Bytes} (hle : storeLE s s') (h : getBlock H s d = .ok b) :
    getBlock H s' d = .ok b := by
  unfold getBlock at h ⊢
  cases hl : lookupStore s d with
  | none => rw [hl] at h; exact absurd h (by simp)
  | some b0 =>
    rw [hl] at h
    rw [hle d b0 hl]
    exact h

theorem catLinksGo_mono {f g : Digest → Except CoreErr Bytes}
    (hfg : ∀ d b, f d = .ok b → g d = .ok b) :
    ∀ {ls : List (Digest × Nat)} {bs : Bytes},
      catLinksGo f ls = .ok bs → catLinksGo g ls = .ok bs := by
  intro ls
  induction ls with
  | nil => intro bs h; exact h
  | cons p ls ih =>
    obtain ⟨d, m⟩ := p
    intro bs h
    simp only [catLinksGo] at h ⊢
    cases hf : f d with
    | error e => rw [hf] at h; exact absurd h (by simp)
    | ok b1 =>
      rw [hf] at h
      rw [hfg d b1 hf]
      cases hr : catLinksGo f ls with
      | error e => rw [hr] at h; exact absurd h (by simp)
      | ok rest => rw [hr] at h; rw [ih hr]; exact h

theorem catDigest_fuel_mono (H : Bytes → Digest) :
    ∀ (fuel fuel' : Nat) (s : Store) (d : Digest) (b : Bytes),
      fuel ≤ fuel' → catDigest H fuel s d = .ok b →
      catDigest H fuel' s d = .ok b := by
  intro fuel
  induction fuel with
  | zero =>
    intro fuel' s d b _ h
    simp [catDigest] at h
  | succ f ih =>
    intro fuel' s d b hle h
    obtain ⟨f', rfl⟩ : ∃ f', fuel' = f' + 1 := ⟨fuel' - 1, by omega⟩
    simp only [catDigest] at h ⊢
    cases hg : getBlock H s d with
    | error e => simp [hg] at h
    | ok bs =>
      simp only [hg] at h ⊢
      cases hd : Node.decode? bs with
      | none => simp [hd] at h
      | some n =>
        simp only [hd] at h ⊢
        cases n with
        | leaf c => exact h
        | internal links =>
          exact catLinksGo_mono (fun d' b' hb => ih f' s d' b' (by omega) hb) h

theorem catDigest_store_mono {H : Bytes → Digest} {s s' : Store}
    (hle : storeLE s s') :
    ∀ (fuel : Nat) (d : Digest) (b : Bytes),
      catDigest H fuel s d = .ok b → catDigest H fuel s' d = .ok b := by
  intro fuel
  induction fuel with
  | zero => intro d b h; simp [catDigest] at h
  | succ f ih =>
    intro d b h
    simp only [catDigest] at h ⊢
    cases hg : getBlock H s d with
    | error e => simp [hg] at h
    | ok bs =>
      simp only [hg] at h
      simp only [getBlock_mono hle hg]
      cases hd : Node.decode? bs with
      | none => simp [hd] at h
      | some n =>
        simp only [hd] at h ⊢
        cases n with
        | leaf c => exact h
        | internal links =>
          exact catLinksGo_mono (fun d' b' hb => ih d' b' hb) h

theorem catLinksGo_concat {H : Bytes → Digest} {fuel : Nat} {s : Store}
    {es : List (Digest × Nat)} {bs : List Bytes}
    (h : List.Forall₂ (fun (e : Digest × Nat) bb =>
      catDigest H fuel s e.1 = .ok bb) es bs) :
    catLinksGo (fun d' => catDigest H fuel s d') es = .ok bs.flatten := by
  induction es generalizing bs with
  | nil => cases h; rfl
  | cons p es ih =>
    obtain ⟨d, m⟩ := p
    cases h with
    | cons h1 h2 =>
      simp only [catLinksGo]
      rw [h1, ih h2]
      simp

theorem putNode_ok {H : Bytes → Digest} (hinj : Function.Injective H)
    {s : Store} (hs : wellHashed H s) (n : Node) :
    ∃ s', putNode H s n = .ok (H n.encode, s') ∧ storeLE s s' ∧
      wellHashed H s' ∧ lookupStore s' (H n.encode) = some n.encode := by
  unfold putNode putBlock
  cases hl : lookupStore s (H n.encode) with
  | some b0 =>
    have hb0 : b0 = n.encode := hinj (hs _ _ hl)
    subst hb0
    simp only [if_pos rfl]
    exact ⟨s, rfl, storeLE_refl s, hs, hl⟩
  | none =>
    refine ⟨(H n.encode, n.encode) :: s, rfl, ?_, ?_, ?_⟩
    · intro d b h
      simp only [lookupStore]
      by_cases hd : H n.encode = d
      · subst hd
        rw [h] at hl
        exact absurd hl (by simp)
      · rw [if_neg hd]; exact h
    · intro d b h
      simp only [lookupStore] at h
      by_cases hd : H n.encode = d
      · rw [if_pos hd] at h
        cases h
        exact hd
      · rw [if_neg hd] at h
        exact hs d b h
    · simp [lookupStore]

theorem putLeaves_ok {H : Bytes → Digest} (hinj : Function.Injective H) :
    ∀ (cs : List Bytes) (s : Store), wellHashed H s →
    ∃ es s', putLeaves H cs s = .ok (es, s') ∧ storeLE s s' ∧
      wellHashed H s' ∧
      es = cs.map (fun c => (H (Node.encode (.leaf c)), c.length)) ∧
      List.Forall₂ (fun (e : Digest × Nat) c =>
        catDigest H 1 s' e.1 = .ok c) es cs ∧
      ∀ c ∈ cs, lookupStore s' (H (Node.encode (.leaf c))) =
        some (Node.encode (.leaf c)) := by
  intro cs
  induction cs with
  | nil =>
    intro s hs
    exact ⟨[], s, rfl, storeLE_refl s, hs, rfl, List.Forall₂.nil, by simp⟩
  | cons c cs ih =>
    intro s hs
    obtain ⟨s1, hp, hle1, hs1, hlook1⟩ := putNode_ok hinj hs (.leaf c)
    obtain ⟨es, s2, hpl, hle2, hs2, hes, hres, hpres⟩ := ih s1 hs1
    have hlook2 : lookupStore s2 (H (Node.encode (.leaf c))) =
        some (Node.encode (.leaf c)) := hle2 _ _ hlook1
    refine ⟨(H (Node.encode (.leaf c)), c.length) :: es, s2, ?_,
      storeLE_trans hle1 hle2, hs2, by simp [hes], ?_, ?_⟩
    · simp only [putLeaves, hp, hpl]
    · refine List.Forall₂.cons ?_ hres
      simp only [catDigest, getBlock, hlook2, hs2 _ _ hlook2, if_pos,
        decode_encode_node]
    · intro c' hc'
      cases hc' with
      | head => exact hlook2
      | tail _ h => exact hpres c' h

theorem putGroups_ok {H : Bytes → Digest} (hinj : Function.Injective H) :
    ∀ (gs : List (List (Digest × Nat))) (bgs : List (List Bytes))
      (s : Store) (k : Nat), wellHashed H s →
      List.Forall₂ (fun g bg => List.Forall₂ (fun (e : Digest × Nat) bb =>
        catDigest H k s e.1 = .ok bb) g bg) gs bgs →
      ∃ es' s', putGroups H gs s = .ok (es', s') ∧ storeLE s s' ∧
        wellHashed H s' ∧
        es' = gs.map (fun g => (H (Node.encode (.internal g)), sumLens g)) ∧
        List.Forall₂ (fun (e : Digest × Nat) bg =>
          catDigest H (k + 1) s' e.1 = .ok bg.flatten) es' bgs := by
  intro gs
  induction gs with
  | nil =>
    intro bgs s k hs h
    cases h
    exact ⟨[], s, rfl, storeLE_refl s, hs, rfl, List.Forall₂.nil⟩
  | cons g gs ih =>
    intro bgs s k hs h
    cases h with
    | cons hg hgs =>
      rename_i bg bgs'
      obtain ⟨s1, hp, hle1, hs1, hlook1⟩ := putNode_ok hinj hs (.internal g)
      have hgs1 : List.Forall₂ (fun g' bg' => List.Forall₂
          (fun (e : Digest × Nat) bb => catDigest H k s1 e.1 = .ok bb) g' bg')
          gs bgs' :=
        hgs.imp (fun g' bg' hg' =>
          hg'.imp (fun e bb he => catDigest_store_mono hle1 k e.1 bb he))
      obtain ⟨es, s2, hpg, hle2, hs2, hes, hres⟩ := ih bgs' s1 k hs1 hgs1
      have hlook2 : lookupStore s2 (H (Node.encode (.internal g))) =
          some (Node.encode (.internal g)) := hle2 _ _ hlook1
      refine ⟨(H (Node.encode (.internal g)), sumLens g) :: es, s2, ?_,
        storeLE_trans hle1 hle2, hs2, by simp [hes], ?_⟩
      · simp only [putGroups, hp, hpg]
      · refine List.Forall₂.cons ?_ hres
        have hg2 : List.Forall₂ (fun (e : Digest × Nat) bb =>
            catDigest H k s2 e.1 = .ok bb) g bg :=
          hg.imp (fun e bb he =>
            catDigest_store_mono (storeLE_trans hle1 hle2) k e.1 bb he)
        simp only [catDigest, getBlock, hlook2, hs2 _ _ hlook2, if_pos,
          decode_encode_node]
        exact catLinksGo_concat hg2

theorem buildLevel_ok {H : Bytes → Digest} (hinj : Function.Injective H) :
    ∀ (fuel : Nat) (es : List (Digest × Nat)) (bss : List Bytes)
      (s : Store) (k : Nat), es ≠ [] → es.length ≤ fuel + 1 →
      wellHashed H s →
      List.Forall₂ (fun (e : Digest × Nat) bb =>
        catDigest H k s e.1 = .ok bb) es bss →
      ∃ d s', buildLevel H fuel es s = .ok (d, s') ∧ storeLE s s' ∧
        wellHashed H s' ∧ catDigest H (k + fuel) s' d = .ok bss.flatten := by
  intro fuel
  induction fuel with
  | zero =>
    intro es bss s k hne hlen hs hres
    match es, bss, hres with
    | [], _, _ => exact absurd rfl hne
    | [e], [bb], .cons h1 .nil =>
      refine ⟨e.1, s, rfl, storeLE_refl s, hs, ?_⟩
      simpa using h1
    | e1 :: e2 :: rest, _, _ => simp at hlen
  | succ f ih =>
    intro es bss s k hne hlen hs hres
    match es, bss, hres with
    | [], _, _ => exact absurd rfl hne
    | [e], [bb], .cons h1 .nil =>
      refine ⟨e.1, s, rfl, storeLE_refl s, hs, ?_⟩
      have := catDigest_fuel_mono H k (k + (f + 1)) s e.1 bb (by omega) h1
      simpa using this
    | e1 :: e2 :: rest, bss, hres =>
      have hgroup := chunksOf_forall2 fanOut hres
      obtain ⟨es', s', hpg, hle1, hs1, hes', hres'⟩ :=
        putGroups_ok hinj (chunksOf fanOut (e1 :: e2 :: rest))
          (chunksOf fanOut bss) s k hs hgroup
      have hres'' : List.Forall₂ (fun (e : Digest × Nat) bb =>
          catDigest H (k + 1) s' e.1 = .ok bb) es'
          ((chunksOf fanOut bss).map List.flatten) :=
        List.forall₂_map_right_iff.mpr hres'
      have hlt : (chunksOf fanOut (e1 :: e2 :: rest)).length <
          (e1 :: e2 :: rest).length :=
        chunksOf_length_lt (by decide) _ (by simp)
      have hlen' : es'.length ≤ f + 1 := by
        rw [hes', List.length_map]
        simp only [List.length_cons] at hlt hlen
        omega
      have hne' : es' ≠ [] := by
        rw [hes']
        intro hcontra
        exact chunksOf_ne_nil fanOut (e1 :: e2 :: rest)
          (List.map_eq_nil_iff.mp hcontra)
      obtain ⟨d, s2, hbl, hle2, hs2, hcat⟩ :=
        ih es' ((chunksOf fanOut bss).map List.flatten) s' (k + 1)
          hne' hlen' hs1 hres''
      refine ⟨d, s2, ?_, storeLE_trans hle1 hle2, hs2, ?_⟩
      · simp only [buildLevel, hpg]
        exact hbl
      · have hflat : ((chunksOf fanOut bss).map List.flatten).flatten =
            bss.flatten := by
          rw [← List.flatten_flatten, chunksOf_flatten]
        rw [hflat] at hcat
        have : k + 1 + f = k + (f + 1) := by omega
        rw [this] at hcat
        exact hcat

theorem hexVal_hexDigitChar : ∀ d < 16, hexVal? (hexDigitChar d) = some d := by
  decide

theorem toLower_hexDigitChar : ∀ d < 16,
    (hexDigitChar d).toLower = hexDigitChar d := by
  decide

theorem mapM_hexVal_map : ∀ (ds : List Nat), (∀ d ∈ ds, d < 16) →
    (ds.map hexDigitChar).mapM hexVal? = some ds := by
  intro ds
  induction ds with
  | nil => intro _; rfl
  | cons d ds ih =>
    intro hd
    have h1 : hexVal? (hexDigitChar d) = some d :=
      hexVal_hexDigitChar d (hd d (by simp))
    have h2 := ih (fun d' hd' => hd d' (by simp [hd']))
    simp only [List.map_cons, List.mapM_cons, h1, h2, Option.pure_def,
      Option.bind_eq_bind, Option.some_bind]

theorem toHexAux_eq : ∀ (n : Nat) (fuel : Nat) (acc : List Char),
    n ≤ fuel → toHexAux fuel n acc =
      ((Nat.digits 16 n).map hexDigitChar).reverse ++ acc := by
  intro n
  induction n using Nat.strong_induction_on with
  | _ n ihn =>
    intro fuel acc hle
    cases fuel with
    | zero =>
      have : n = 0 := by omega
      subst this
      simp [toHexAux]
    | succ f =>
      by_cases hn : n = 0
      · subst hn; simp [toHexAux]
      · have hdiv : n / 16 < n := Nat.div_lt_self (by omega) (by omega)
        have hdf : n / 16 ≤ f := by omega
        simp only [toHexAux, hn, if_false]
        rw [ihn (n / 16) hdiv f _ hdf]
        rw [Nat.digits_def' (by norm_num : 1 < 16) (by omega : 0 < n)]
        simp [List.append_assoc]

theorem parseHex_toHex (n : Nat) : parseHex (toHex n) = some n := by
  by_cases hn : n = 0
  · subst hn; rfl
  · have htox : toHex n = ((Nat.digits 16 n).map hexDigitChar).reverse := by
      simp only [toHex, hn, if_false]
      have := toHexAux_eq n n [] (Nat.le_refl n)
      simpa using this
    have hne : Nat.digits 16 n ≠ [] := Nat.digits_ne_nil_iff_ne_zero.mpr hn
    have hnel : toHex n ≠ [] := by
      rw [htox]
      simp [hne]
    unfold parseHex
    rw [if_neg hnel, htox, List.reverse_reverse]
    rw [mapM_hexVal_map (Nat.digits 16 n)
      (fun d hd => Nat.digits_lt_base (by norm_num) hd)]
    simp [Nat.ofDigits_digits]

theorem mem_toHexAux : ∀ (fuel n : Nat) (acc : List Char) (c : Char),
    c ∈ toHexAux fuel n acc →
    (∃ d, d < 16 ∧ c = hexDigitChar d) ∨ c ∈ acc := by
  intro fuel
  induction fuel with
  | zero => intro n acc c hc; exact Or.inr hc
  | succ f ih =>
    intro n acc c hc
    by_cases hn : n = 0
    · subst hn; simp only [toHexAux] at hc; exact Or.inr hc
    · simp only [toHexAux, hn, if_false] at hc
      rcases ih (n / 16) _ c hc with h | h
      · exact Or.inl h
      · cases h with
        | head => exact Or.inl ⟨n % 16, Nat.mod_lt n (by omega), rfl⟩
        | tail _ h => exact Or.inr h

theorem codecOfChar_codecChar (t : CodecTag) :
    codecOfChar (codecChar t) = some t := by
  cases t <;> rfl

theorem hashOfChar_hashChar (t : HashTag) :
    hashOfChar (hashChar t) = some t := by
  cases t <;> rfl

theorem encodeCID_lowercase (x : CIDv) :
    ∀ c ∈ encodeCID x, c.toLower = c := by
  intro c hc
  simp only [encodeCID, List.mem_cons] at hc
  rcases hc with rfl | rfl | hc
  · cases x.codec <;> decide
  · cases x.hashT <;> decide
  · simp only [toHex] at hc
    by_cases hd : x.digest = 0
    · rw [if_pos hd] at hc
      simp only [List.mem_singleton] at hc
      subst hc; decide
    · rw [if_neg hd] at hc
      rcases mem_toHexAux _ _ _ c hc with ⟨d, hd16, rfl⟩ | h
      · exact toLower_hexDigitChar d hd16
      · simp at h

theorem map_toLower_encodeCID (x : CIDv) :
    (encodeCID x).map Char.toLower = encodeCID x := by
  exact (List.map_congr_left
    (fun c hc => encodeCID_lowercase x c hc)).trans
    (List.map_id' (encodeCID x))

theorem decode_encodeCID (x : CIDv) : decodeCID (encodeCID x) = .ok x := by
  unfold decodeCID
  rw [map_toLower_encodeCID]
  show (match codecOfChar (codecChar x.codec), hashOfChar (hashChar x.hashT),
    parseHex (toHex x.digest) with
    | some ct, some ht, some n => Except.ok (⟨ct, ht, n⟩ : CIDv)
    | _, _, _ => Except.error CoreErr.invalidCID) = Except.ok x
  rw [codecOfChar_codecChar, hashOfChar_hashChar, parseHex_toHex]

theorem decodeCID_congr {l l' : List Char}
    (h : l.map Char.toLower = l'.map Char.toLower) :
    decodeCID l = decodeCID l' := by
  unfold decodeCID
  rw [h]

theorem addBytes_cat {H : Bytes → Digest} (hinj : Function.Injective H)
    {s : Store} (hs : wellHashed H s) (b : Bytes) :
    ∃ cid s', AddBytes H s b = .ok (cid, s') ∧ storeLE s s' ∧
      wellHashed H s' ∧
      ∀ fuel, b.length + 2 ≤ fuel → catCID H fuel s' cid = .ok b := by
  obtain ⟨es, s1, hpl, hle1, hs1, hes, hres, hpres⟩ :=
    putLeaves_ok hinj (chunksOf maxChunkSize b) s hs
  have hne : es ≠ [] := by
    rw [hes]
    intro hcontra
    exact chunksOf_ne_nil maxChunkSize b (List.map_eq_nil_iff.mp hcontra)
  obtain ⟨d, s2, hbl, hle2, hs2, hcat⟩ :=
    buildLevel_ok hinj es.length es (chunksOf maxChunkSize b) s1 1 hne
      (by omega) hs1 hres
  refine ⟨encodeCID ⟨if es.length = 1 then .raw else .dagPB, .sha2, d⟩, s2, ?_,
    storeLE_trans hle1 hle2, hs2, ?_⟩
  · simp only [AddBytes, hpl, hbl]
  · intro fuel hfuel
    unfold catCID
    rw [decode_encodeCID]
    have hflat : (chunksOf maxChunkSize b).flatten = b := chunksOf_flatten _ _
    rw [hflat] at hcat
    have hcount : es.length ≤ b.length + 1 := by
      rw [hes, List.length_map]
      exact chunksOf_length_le maxChunkSize b
    exact catDigest_fuel_mono H (1 + es.length) fuel s2 d b (by omega) hcat

/-- Mirror of the digest computed by `buildLevel`, independent of the
store: the returned root digest is a pure function of the entries. -/
def rootDigest (H : Bytes → Digest) : Nat → List (Digest × Nat) →
    Option Digest
  | _, [] => none
  | _, [e] => some e.1
  | 0, _ :: _ :: _ => none
  | fuel + 1, e1 :: e2 :: rest =>
    rootDigest H fuel ((chunksOf fanOut (e1 :: e2 :: rest)).map
      (fun g => (H (Node.encode (.internal g)), sumLens g)))

theorem putGroups_entries {H : Bytes → Digest} :
    ∀ (gs : List (List (Digest × Nat))) (s : Store) (es : List (Digest × Nat))
      (s' : Store), putGroups H gs s = .ok (es, s') →
      es = gs.map (fun g => (H (Node.encode (.internal g)), sumLens g)) := by
  intro gs
  induction gs with
  | nil =>
    intro s es s' h
    simp only [putGroups] at h
    cases h
    rfl
  | cons g gs ih =>
    intro s es s' h
    simp only [putGroups] at h
    cases hp : putNode H s (.internal g) with
    | error e => simp [hp] at h
    | ok p =>
      obtain ⟨d, s1⟩ := p
      simp only [hp] at h
      cases hpg : putGroups H gs s1 with
      | error e => simp [hpg] at h
      | ok q =>
        obtain ⟨es1, s2⟩ := q
        simp only [hpg] at h
        cases h
        have hd : d = H (Node.encode (.internal g)) := by
          simp only [putNode] at hp
          cases hb : putBlock s (H (Node.encode (.internal g)))
              (Node.encode (.internal g)) with
          | error e => simp [hb] at hp
          | ok s'' =>
            simp only [hb] at hp
            cases hp
            rfl
        rw [hd, ih s1 es1 _ hpg]
        simp

theorem buildLevel_rootDigest {H : Bytes → Digest} :
    ∀ (fuel : Nat) (es : List (Digest × Nat)) (s : Store) (d : Digest)
      (s' : Store), buildLevel H fuel es s = .ok (d, s') →
      rootDigest H fuel es = some d := by
  intro fuel
  induction fuel with
  | zero =>
    intro es s d s' h
    match es with
    | [] => simp [buildLevel] at h
    | [e] =>
      simp only [buildLevel] at h
      cases h
      rfl
    | e1 :: e2 :: rest => simp [buildLevel] at h
  | succ f ih =>
    intro es s d s' h
    match es with
    | [] => simp [buildLevel] at h
    | [e] =>
      simp only [buildLevel] at h
      cases h
      rfl
    | e1 :: e2 :: rest =>
      simp only [buildLevel] at h
      cases hpg : putGroups H (chunksOf fanOut (e1 :: e2 :: rest)) s with
      | error e => simp [hpg] at h
      | ok q =>
        obtain ⟨es', s1⟩ := q
        simp only [hpg] at h
        have hes' := putGroups_entries _ _ _ _ hpg
        simp only [rootDigest]
        rw [← hes']
        exact ih es' s1 d s' h

theorem putLeaves_entries {H : Bytes → Digest} :
    ∀ (cs : List Bytes) (s : Store) (es : List (Digest × Nat)) (s' : Store),
      putLeaves H cs s = .ok (es, s') →
      es = cs.map (fun c => (H (Node.encode (.leaf c)), c.length)) := by
  intro cs
  induction cs with
  | nil =>
    intro s es s' h
    simp only [putLeaves] at h
    cases h
    rfl
  | cons c cs ih =>
    intro s es s' h
    simp only [putLeaves] at h
    cases hp : putNode H s (.leaf c) with
    | error e => simp [hp] at h
    | ok p =>
      obtain ⟨d, s1⟩ := p
      simp only [hp] at h
      cases hpl : putLeaves H cs s1 with
      | error e => simp [hpl] at h
      | ok q =>
        obtain ⟨es1, s2⟩ := q
        simp only [hpl] at h
        cases h
        have hd : d = H (Node.encode (.leaf c)) := by
          simp only [putNode] at hp
          cases hb : putBlock s (H (Node.encode (.leaf c)))
              (Node.encode (.leaf c)) with
          | error e => simp [hb] at hp
          | ok s'' =>
            simp only [hb] at hp
            cases hp
            rfl
        rw [hd, ih s1 es1 _ hpl]
        simp

theorem addBytes_cid_pure {H : Bytes → Digest} {s : Store} {b : Bytes}
    {cid : List Char} {s' : Store} (h : AddBytes H s b = .ok (cid, s')) :
    ∃ d, rootDigest H
        (chunksOf maxChunkSize b).length
        ((chunksOf maxChunkSize b).map
          (fun c => (H (Node.encode (.leaf c)), c.length))) = some d ∧
      cid = encodeCID ⟨if (chunksOf maxChunkSize b).length = 1
        then .raw else .dagPB, .sha2, d⟩ := by
  unfold AddBytes at h
  cases hpl : putLeaves H (chunksOf maxChunkSize b) s with
  | error e => simp [hpl] at h
  | ok p =>
    obtain ⟨es, s1⟩ := p
    simp only [hpl] at h
    cases hbl : buildLevel H es.length es s1 with
    | error e => simp [hbl] at h
    | ok q =>
      obtain ⟨d, s2⟩ := q
      simp only [hbl] at h
      cases h
      have hes := putLeaves_entries _ _ _ _ hpl
      have hlen : es.length = (chunksOf maxChunkSize b).length := by
        rw [hes, List.length_map]
      refine ⟨d, ?_, ?_⟩
      · rw [← hlen, ← hes]
        exact buildLevel_rootDigest es.length es s1 d _ hbl
      · rw [← hlen]

theorem decodeCID_cases (l : List Char) :
    decodeCID l = .error .invalidCID ∨ ∃ x, decodeCID l = .ok x := by
  unfold decodeCID
  split
  · split
    · right; exact ⟨_, rfl⟩
    · left; rfl
  · left; rfl

theorem decodeCID_error_invalid {l : List Char} {e : CoreErr}
    (h : decodeCID l = .error e) : e = .invalidCID := by
  rcases decodeCID_cases l with h0 | ⟨x, h0⟩
  · rw [h0] at h
    cases h
    rfl
  · rw [h0] at h
    exact absurd h (by simp)

theorem catCID_decode_error {l : List Char} {e : CoreErr}
    (h : decodeCID l = .error e) (H : Bytes → Digest) (fuel : Nat)
    (s : Store) : catCID H fuel s l = .error .invalidCID := by
  unfold catCID
  simp only [h]
  rw [decodeCID_error_invalid h]

theorem catCID_notFound {l : List Char} {x : CIDv} (H : Bytes → Digest)
    (fuel : Nat) {s : Store} (h : decodeCID l = .ok x)
    (habs : lookupStore s x.digest = none) :
    catCID H fuel s l = .error .notFound := by
  unfold catCID
  simp only [h]
  cases fuel with
  | zero => rfl
  | succ f => simp only [catDigest, getBlock, habs]

theorem getBlock_corrupt {H : Bytes → Digest} {s : Store} {d : Digest}
    {b : Bytes} (hl : lookupStore s d = some b) (hbad : H b ≠ d) :
    getBlock H s d = .error .corruption := by
  unfold getBlock
  simp only [hl, if_neg hbad]

theorem catDigest_corrupt {H : Bytes → Digest} {s : Store} {d : Digest}
    {b : Bytes} (fuel : Nat) (hl : lookupStore s d = some b)
    (hbad : H b ≠ d) :
    catDigest H (fuel + 1) s d = .error .corruption := by
  simp only [catDigest, getBlock_corrupt hl hbad]

theorem catLinksGo_agree {f g : Digest → Except CoreErr Bytes}
    (hfg : ∀ d b b', f d = .ok b → g d = .ok b' → b' = b) :
    ∀ {ls : List (Digest × Nat)} {bs bs' : Bytes},
      catLinksGo f ls = .ok bs → catLinksGo g ls = .ok bs' → bs' = bs := by
  intro ls
  induction ls with
  | nil =>
    intro bs bs' h h'
    cases h
    cases h'
    rfl
  | cons p ls ih =>
    obtain ⟨d, m⟩ := p
    intro bs bs' h h'
    simp only [catLinksGo] at h h'
    cases hf : f d with
    | error e => simp [hf] at h
    | ok b1 =>
      simp only [hf] at h
      cases hg : g d with
      | error e => simp [hg] at h'
      | ok b1' =>
        simp only [hg] at h'
        cases hr : catLinksGo f ls with
        | error e => simp [hr] at h
        | ok rest =>
          simp only [hr] at h
          cases hr' : catLinksGo g ls with
          | error e => simp [hr'] at h'
          | ok rest' =>
            simp only [hr'] at h'
            cases h
            cases h'
            rw [hfg d b1 b1' hf hg, ih hr hr']

theorem catDigest_agree {H : Bytes → Digest} {s s' : Store} {d0 : Digest}
    (hagree : ∀ d, d ≠ d0 → lookupStore s' d = lookupStore s d)
    (hbad : ∀ bb, lookupStore s' d0 = some bb → H bb ≠ d0) :
    ∀ (fuel : Nat) (d : Digest) (b b' : Bytes),
      catDigest H fuel s d = .ok b → catDigest H fuel s' d = .ok b' →
      b' = b := by
  intro fuel
  induction fuel with
  | zero =>
    intro d b b' h _
    simp [catDigest] at h
  | succ f ih =>
    intro d b b' h h'
    by_cases hd0 : d = d0
    · subst hd0
      exfalso
      simp only [catDigest] at h'
      cases hl : lookupStore s' d with
      | none => simp [getBlock, hl] at h'
      | some bb => simp [getBlock, hl, hbad bb hl] at h'
    · have hla : lookupStore s' d = lookupStore s d := hagree d hd0
      simp only [catDigest] at h h'
      cases hl : lookupStore s d with
      | none => simp [getBlock, hl] at h
      | some bs =>
        simp only [getBlock, hl] at h
        simp only [getBlock, hla, hl] at h'
        by_cases hh : H bs = d
        · simp only [if_pos hh] at h h'
          cases hdec : Node.decode? bs with
          | none => simp [hdec] at h
          | some n =>
            simp only [hdec] at h h'
            cases n with
            | leaf c =>
              cases h
              cases h'
              rfl
            | internal links =>
              exact catLinksGo_agree (fun d'' bb bb' => ih d'' bb bb') h h'
        · simp [if_neg hh] at h

theorem lookupStore_none_not_mem {s : Store} {d : Digest}
    (h : lookupStore s d = none) : d ∉ s.map Prod.fst := by
  induction s with
  | nil => simp
  | cons p t ih =>
    obtain ⟨d', b'⟩ := p
    simp only [lookupStore] at h
    by_cases hd : d' = d
    · rw [if_pos hd] at h
      exact absurd h (by simp)
    · rw [if_neg hd] at h
      simp only [List.map_cons, List.mem_cons]
      intro hc
      rcases hc with hc | hc
      · exact hd hc.symm
      · exact ih h hc

theorem putBlock_nodup {s : Store} {d : Digest} {b : Bytes} {s' : Store}
    (h : putBlock s d b = .ok s') (hnd : (s.map Prod.fst).Nodup) :
    (s'.map Prod.fst).Nodup := by
  unfold putBlock at h
  cases hl : lookupStore s d with
  | some b0 =>
    simp only [hl] at h
    by_cases heq : b0.length = b.length
    · rw [if_pos heq] at h
      cases h
      exact hnd
    · rw [if_neg heq] at h
      exact absurd h (by simp)
  | none =>
    simp only [hl] at h
    cases h
    simp only [List.map_cons, List.nodup_cons]
    exact ⟨lookupStore_none_not_mem hl, hnd⟩

theorem putNode_nodup {H : Bytes → Digest} {s : Store} {n : Node}
    {d : Digest} {s' : Store} (h : putNode H s n = .ok (d, s'))
    (hnd : (s.map Prod.fst).Nodup) : (s'.map Prod.fst).Nodup := by
  unfold putNode at h
  cases hb : putBlock s (H n.encode) n.encode with
  | error e => simp [hb] at h
  | ok s'' =>
    simp only [hb] at h
    cases h
    exact putBlock_nodup hb hnd

theorem putLeaves_nodup {H : Bytes → Digest} :
    ∀ {cs : List Bytes} {s : Store} {es : List (Digest × Nat)} {s' : Store},
      putLeaves H cs s = .ok (es, s') → (s.map Prod.fst).Nodup →
      (s'.map Prod.fst).Nodup := by
  intro cs
  induction cs with
  | nil =>
    intro s es s' h hnd
    cases h
    exact hnd
  | cons c cs ih =>
    intro s es s' h hnd
    simp only [putLeaves] at h
    cases hp : putNode H s (.leaf c) with
    | error e => simp [hp] at h
    | ok p =>
      obtain ⟨d, s1⟩ := p
      simp only [hp] at h
      cases hpl : putLeaves H cs s1 with
      | error e => simp [hpl] at h
      | ok q =>
        obtain ⟨es1, s2⟩ := q
        simp only [hpl] at h
        cases h
        exact ih hpl (putNode_nodup hp hnd)

theorem putGroups_nodup {H : Bytes → Digest} :
    ∀ {gs : List (List (Digest × Nat))} {s : Store}
      {es : List (Digest × Nat)} {s' : Store},
      putGroups H gs s = .ok (es, s') → (s.map Prod.fst).Nodup →
      (s'.map Prod.fst).Nodup := by
  intro gs
  induction gs with
  | nil =>
    intro s es s' h hnd
    cases h
    exact hnd
  | cons g gs ih =>
    intro s es s' h hnd
    simp only [putGroups] at h
    cases hp : putNode H s (.internal g) with
    | error e => simp [hp] at h
    | ok p =>
      obtain ⟨d, s1⟩ := p
      simp only [hp] at h
      cases hpg : putGroups H gs s1 with
      | error e => simp [hpg] at h
      | ok q =>
        obtain ⟨es1, s2⟩ := q
        simp only [hpg] at h
        cases h
        exact ih hpg (putNode_nodup hp hnd)

theorem buildLevel_nodup {H : Bytes → Digest} :
    ∀ {fuel : Nat} {es : List (Digest × Nat)} {s : Store} {d : Digest}
      {s' : Store}, buildLevel H fuel es s = .ok (d, s') →
      (s.map Prod.fst).Nodup → (s'.map Prod.fst).Nodup := by
  intro fuel
  induction fuel with
  | zero =>
    intro es s d s' h hnd
    match es with
    | [] => simp [buildLevel] at h
    | [e] =>
      simp only [buildLevel] at h
      cases h
      exact hnd
    | e1 :: e2 :: rest => simp [buildLevel] at h
  | succ f ih =>
    intro es s d s' h hnd
    match es with
    | [] => simp [buildLevel] at h
    | [e] =>
      simp only [buildLevel] at h
      cases h
      exact hnd
    | e1 :: e2 :: rest =>
      simp only [buildLevel] at h
      cases hpg : putGroups H (chunksOf fanOut (e1 :: e2 :: rest)) s with
      | error e => simp [hpg] at h
      | ok q =>
        obtain ⟨es', s1⟩ := q
        simp only [hpg] at h
        exact ih h (putGroups_nodup hpg hnd)

theorem addBytes_nodup {H : Bytes → Digest} {s : Store} {b : Bytes}
    {cid : List Char} {s' : Store} (h : AddBytes H s b = .ok (cid, s'))
    (hnd : (s.map Prod.fst).Nodup) : (s'.map Prod.fst).Nodup := by
  unfold AddBytes at h
  cases hpl : putLeaves H (chunksOf maxChunkSize b) s with
  | error e => simp [hpl] at h
  | ok p =>
    obtain ⟨es, s1⟩ := p
    simp only [hpl] at h
    cases hbl : buildLevel H es.length es s1 with
    | error e => simp [hbl] at h
    | ok q =>
      obtain ⟨d, s2⟩ := q
      simp only [hbl] at h
      cases h
      exact buildLevel_nodup hbl (putLeaves_nodup hpl hnd)

/-- UTF-8 payloads are modelled as character code points. -/
def utf8Bytes (l : List Char) : Bytes := l.map Char.toNat

/-- HTTP response body shapes the server produces: a CID payload
(`res.json` of an object with a `cid` field), an error payload
(`res.json` of an object with an `error` field holding the message),
or raw bytes (`res.send(buffer)`). -/
inductive RespBody where
  | cidJson : List Char → RespBody
  | errJson : List Char → RespBody
  | raw : Bytes → RespBody
deriving DecidableEq

/-- An HTTP response: status code and body. -/
structure HttpResp where
  status : Nat
  body : RespBody
deriving DecidableEq

/-- Error message of `GET /cat/:cid` failures in `src/server.js`. -/
def msgInvalidOrNotFound : List Char := "Invalid or not found CID".data

/-- The `POST /add/text` route of `src/server.js`: the body string is
turned into a UTF-8 buffer and added; any string (including the empty
one) is accepted, failures of the add yield 500. -/
def addTextEndpoint (H : Bytes → Digest) (s : Store) (body : List Char) :
    HttpResp × Store :=
  match AddBytes H s (utf8Bytes body) with
  | .ok (cid, s') => (⟨200, .cidJson cid⟩, s')
  | .error _ => (⟨500, .errJson "Failed to add text".data⟩, s)

/-- The `POST /add/file` route of `src/server.js`: a missing file field
is rejected with 400 before any add; otherwise the buffer is added and
failures yield 500. -/
def addFileEndpoint (H : Bytes → Digest) (s : Store) (file : Option Bytes) :
    HttpResp × Store :=
  match file with
  | none => (⟨400, .errJson "No file uploaded".data⟩, s)
  | some b =>
    match AddBytes H s b with
    | .ok (cid, s') => (⟨200, .cidJson cid⟩, s')
    | .error _ => (⟨500, .errJson "Failed to add file".data⟩, s)

/-- The `POST /add/raw` route of `src/server.js`: an empty body is
rejected with 400 before any add; otherwise the bytes are added and
failures yield 500. -/
def addRawEndpoint (H : Bytes → Digest) (s : Store) (body : Bytes) :
    HttpResp × Store :=
  if body.length = 0 then (⟨400, .errJson "Empty body".data⟩, s)
  else
    match AddBytes H s body with
    | .ok (cid, s') => (⟨200, .cidJson cid⟩, s')
    | .error _ => (⟨500, .errJson "Failed to add raw data".data⟩, s)

/-- JSON values as parsed by the `express.json()` middleware. -/
inductive JVal where
  | null : JVal
  | bool : Bool → JVal
  | num : Int → JVal
  | str : List Char → JVal
  | arr : List JVal → JVal
  | obj : List (List Char × JVal) → JVal

mutual

/-- The canonical re-serialisation `JSON.stringify` applied to a parsed
value (no added whitespace; object fields in parsed order). -/
def stringify : JVal → List Char
  | .null => "null".data
  | .bool true => "true".data
  | .bool false => "false".data
  | .num n => (toString n).data
  | .str s => '"' :: s ++ ['"']
  | .arr vs => '[' :: stringifyItems vs ++ [']']
  | .obj fs => '\x7b' :: stringifyFields fs ++ ['\x7d']

/-- Comma-separated serialisation of array items. -/
def stringifyItems : List JVal → List Char
  | [] => []
  | [v] => stringify v
  | v :: vs => stringify v ++ ',' :: stringifyItems vs

/-- Comma-separated serialisation of object fields. -/
def stringifyFields : List (List Char × JVal) → List Char
  | [] => []
  | [(k, v)] => '"' :: k ++ '"' :: ':' :: stringify v
  | (k, v) :: fs => ('"' :: k ++ '"' :: ':' :: stringify v) ++
      ',' :: stringifyFields fs

end

/-- The `POST /add/json` route of `src/server.js`: the buffer stored is
`Buffer.from(JSON.stringify(req.body))` — the canonical re-serialisation
of the parsed body, not the raw request bytes. -/
def addJsonEndpoint (H : Bytes → Digest) (s : Store) (body : JVal) :
    HttpResp × Store :=
  match AddBytes H s (utf8Bytes (stringify body)) with
  | .ok (cid, s') => (⟨200, .cidJson cid⟩, s')
  | .error _ => (⟨500, .errJson "Failed to add JSON".data⟩, s)

/-- The `GET /cat/:cid` route of `src/server.js`: parse the lowercased
CID and stream the content; any failure (invalid CID, missing block,
corruption) is reported as 404 with the fixed error payload, and no
partial bytes are delivered as a success. -/
def catEndpoint (H : Bytes → Digest) (fuel : Nat) (s : Store)
    (cidStr : List Char) : HttpResp :=
  match catCID H fuel s cidStr with
  | .ok b => ⟨200, .raw b⟩
  | .error _ => ⟨404, .errJson msgInvalidOrNotFound⟩

/-- Bound on the recent-CID list kept by `src/server.js`. -/
def MAX_RECENT : Nat := 10

/-- The observability counters of `src/server.js`: `totalCIDsStored` and
the `recentCIDs` array (most recent first). -/
structure Stats where
  totalCIDsStored : Nat
  recentCIDs : List (List Char)
deriving DecidableEq

/-- The `trackCID` helper of `src/server.js`: prepend (`unshift`) the CID
string, bump the counter, and drop the oldest entry (`pop`) when the list
exceeds `MAX_RECENT`.  (The JavaScript guard for a CID without a
`toString` method cannot fire here since CIDs are modelled as strings.) -/
def trackCID (st : Stats) (cid : List Char) : Stats :=
  let r := cid :: st.recentCIDs
  if r.length > MAX_RECENT then ⟨st.totalCIDsStored + 1, r.dropLast⟩
  else ⟨st.totalCIDsStored + 1, r⟩

/-- The payload of `GET /status` relevant to tracking state: it reports
`totalCIDsStored` and a clone (`slice()`) of `recentCIDs`; the clone has
the same list value as the internal array. -/
structure StatusInfo where
  totalRequests : Nat
  totalCIDsStored : Nat
  recentCIDs : List (List Char)
deriving DecidableEq

/-- The `GET /status` route of `src/server.js`, restricted to the
deterministic fields (timestamp, uptime and memory figures are ambient
process state outside the model). -/
def statusEndpoint (totalRequests : Nat) (st : Stats) : StatusInfo :=
  ⟨totalRequests, st.totalCIDsStored,
    st.recentCIDs.take st.recentCIDs.length⟩

theorem putBlock_storeLE {s : Store} {d : Digest} {b : Bytes} {s' : Store}
    (h : putBlock s d b = .ok s') : storeLE s s' := by
  unfold putBlock at h
  cases hl : lookupStore s d with
  | some b0 =>
    simp only [hl] at h
    by_cases heq : b0.length = b.length
    · rw [if_pos heq] at h
      cases h
      exact storeLE_refl s
    · rw [if_neg heq] at h
      exact absurd h (by simp)
  | none =>
    simp only [hl] at h
    cases h
    intro d' b' h'
    simp only [lookupStore]
    by_cases hd : d = d'
    · subst hd
      rw [h'] at hl
      exact absurd hl (by simp)
    · rw [if_neg hd]
      exact h'

theorem putNode_storeLE {H : Bytes → Digest} {s : Store} {n : Node}
    {d : Digest} {s' : Store} (h : putNode H s n = .ok (d, s')) :
    storeLE s s' := by
  unfold putNode at h
  cases hb : putBlock s (H n.encode) n.encode with
  | error e => simp [hb] at h
  | ok s'' =>
    simp only [hb] at h
    cases h
    exact putBlock_storeLE hb

theorem putGroups_storeLE {H : Bytes → Digest} :
    ∀ {gs : List (List (Digest × Nat))} {s : Store}
      {es : List (Digest × Nat)} {s' : Store},
      putGroups H gs s = .ok (es, s') → storeLE s s' := by
  intro gs
  induction gs with
  | nil =>
    intro s es s' h
    cases h
    exact storeLE_refl s
  | cons g gs ih =>
    intro s es s' h
    simp only [putGroups] at h
    cases hp : putNode H s (.internal g) with
    | error e => simp [hp] at h
    | ok p =>
      obtain ⟨d, s1⟩ := p
      simp only [hp] at h
      cases hpg : putGroups H gs s1 with
      | error e => simp [hpg] at h
      | ok q =>
        obtain ⟨es1, s2⟩ := q
        simp only [hpg] at h
        cases h
        exact storeLE_trans (putNode_storeLE hp) (ih hpg)

theorem buildLevel_storeLE {H : Bytes → Digest} :
    ∀ {fuel : Nat} {es : List (Digest × Nat)} {s : Store} {d : Digest}
      {s' : Store}, buildLevel H fuel es s = .ok (d, s') → storeLE s s' := by
  intro fuel
  induction fuel with
  | zero =>
    intro es s d s' h
    match es with
    | [] => simp [buildLevel] at h
    | [e] =>
      simp only [buildLevel] at h
      cases h
      exact storeLE_refl s
    | e1 :: e2 :: rest => simp [buildLevel] at h
  | succ f ih =>
    intro es s d s' h
    match es with
    | [] => simp [buildLevel] at h
    | [e] =>
      simp only [buildLevel] at h
      cases h
      exact storeLE_refl s
    | e1 :: e2 :: rest =>
      simp only [buildLevel] at h
      cases hpg : putGroups H (chunksOf fanOut (e1 :: e2 :: rest)) s with
      | error e => simp [hpg] at h
      | ok q =>
        obtain ⟨es', s1⟩ := q
        simp only [hpg] at h
        exact storeLE_trans (putGroups_storeLE hpg) (ih h)

theorem addBytes_cid_eq {H : Bytes → Digest} {s1 s2 : Store} {b : Bytes}
    {cid1 cid2 : List Char} {s1' s2' : Store}
    (h1 : AddBytes H s1 b = .ok (cid1, s1'))
    (h2 : AddBytes H s2 b = .ok (cid2, s2')) : cid1 = cid2 := by
  obtain ⟨d1, hr1, hc1⟩ := addBytes_cid_pure h1
  obtain ⟨d2, hr2, hc2⟩ := addBytes_cid_pure h2
  rw [hr1] at hr2
  cases hr2
  rw [hc1, hc2]

theorem take_append_take {α : Type} (A X : List α) (n : Nat) :
    (A ++ X.take n).take n = (A ++ X).take n := by
  rw [List.take_append_eq_append_take, List.take_append_eq_append_take,
    List.take_take]
  congr 1
  rw [Nat.min_eq_left (Nat.sub_le n A.length)]

theorem trackCID_recent (st : Stats) (c : List Char)
    (h : st.recentCIDs.length ≤ MAX_RECENT) :
    (trackCID st c).recentCIDs = (c :: st.recentCIDs).take MAX_RECENT ∧
    (trackCID st c).totalCIDsStored = st.totalCIDsStored + 1 := by
  simp only [trackCID]
  by_cases hlen : (c :: st.recentCIDs).length > MAX_RECENT
  · rw [if_pos hlen]
    refine ⟨?_, rfl⟩
    simp only
    rw [List.dropLast_eq_take]
    congr 1
    simp only [List.length_cons] at hlen ⊢
    omega
  · rw [if_neg hlen]
    refine ⟨?_, rfl⟩
    simp only
    rw [List.take_of_length_le (by simp only [List.length_cons] at hlen ⊢; omega)]

theorem foldl_trackCID :
    ∀ (cids : List (List Char)) (st : Stats),
      st.recentCIDs.length ≤ MAX_RECENT →
      (cids.foldl trackCID st).recentCIDs =
        (cids.reverse ++ st.recentCIDs).take MAX_RECENT ∧
      (cids.foldl trackCID st).totalCIDsStored =
        st.totalCIDsStored + cids.length ∧
      (cids.foldl trackCID st).recentCIDs.length ≤ MAX_RECENT := by
  intro cids
  induction cids with
  | nil =>
    intro st h
    refine ⟨?_, rfl, h⟩
    simp only [List.reverse_nil, List.nil_append, List.foldl_nil]
    rw [List.take_of_length_le h]
  | cons c cids ih =>
    intro st h
    obtain ⟨hr, ht⟩ := trackCID_recent st c h
    have hlen' : (trackCID st c).recentCIDs.length ≤ MAX_RECENT := by
      rw [hr]
      exact List.length_take_le _ _
    obtain ⟨ihr, iht, ihb⟩ := ih (trackCID st c) hlen'
    simp only [List.foldl_cons]
    refine ⟨?_, ?_, ihb⟩
    · rw [ihr, hr, take_append_take]
      simp [List.append_assoc]
    · rw [iht, ht]
      simp only [List.length_cons]
      omega

/-- C1: for every byte sequence `b` (including the empty sequence and
sequences longer than one chunk), adding `b` succeeds and retrieving the
returned CID returns exactly `b`, the reconstructed bytes in original
order: `Cat(AddBytes(b)) = b`, for any injective hash, any well-hashed
starting store, and any sufficient retrieval fuel. -/
theorem add_cat_roundtrip (H : Bytes → Digest) (hinj : Function.Injective H)
    (s : Store) (hs : wellHashed H s) (b : Bytes) (fuel : Nat)
    (hfuel : b.length + 2 ≤ fuel) :
    ∃ cid s', AddBytes H s b = .ok (cid, s') ∧
      catCID H fuel s' cid = .ok b := by
  obtain ⟨cid, s', hadd, _, _, hcat⟩ := addBytes_cat hinj hs b
  exact ⟨cid, s', hadd, hcat fuel hfuel⟩

theorem add_cat_roundtrip_witness :
    Function.Injective listHash ∧ wellHashed listHash [] ∧
      ([3, 5] : Bytes).length + 2 ≤ 4 ∧
      (∃ cid s', AddBytes listHash [] [3, 5] = .ok (cid, s') ∧
        catCID listHash 4 s' cid = .ok [3, 5]) :=
  ⟨listHash_injective, wellHashed_nil listHash, by decide,
    add_cat_roundtrip listHash listHash_injective [] (wellHashed_nil listHash)
      [3, 5] 4 (by decide)⟩

/-- C2: the CID codec round-trips (`decode (encode x) = .ok x` for every
digest/codec-tag/hash-tag triple), decoding is case-insensitive (two CID
strings agreeing up to letter case decode identically, so they denote the
same content), and encoding produces canonical lowercase output. -/
theorem cid_codec_spec :
    (∀ x : CIDv, decodeCID (encodeCID x) = .ok x) ∧
    (∀ l l' : List Char, l.map Char.toLower = l'.map Char.toLower →
      decodeCID l = decodeCID l') ∧
    (∀ x : CIDv, ∀ c ∈ encodeCID x, c.toLower = c) :=
  ⟨decode_encodeCID, fun _ _ h => decodeCID_congr h, encodeCID_lowercase⟩

theorem cid_codec_spec_witness :
    decodeCID (encodeCID ⟨.dagPB, .sha2, 2602⟩) = .ok ⟨.dagPB, .sha2, 2602⟩ ∧
    (['R', 'S', 'A', '2', 'A'].map Char.toLower =
      ['r', 's', 'a', '2', 'a'].map Char.toLower) ∧
    decodeCID ['R', 'S', 'A', '2', 'A'] = decodeCID ['r', 's', 'a', '2', 'a'] :=
  ⟨cid_codec_spec.1 ⟨.dagPB, .sha2, 2602⟩, by decide,
    cid_codec_spec.2.1 ['R', 'S', 'A', '2', 'A'] ['r', 's', 'a', '2', 'a']
      (by decide)⟩

/-- C3: `AddBytes` is deterministic — for a fixed configuration, two runs
of `AddBytes` on the same byte sequence return the same CID, regardless of
the (possibly different) store states the two runs start from. -/
theorem addBytes_deterministic (H : Bytes → Digest) (s1 s2 : Store)
    (b : Bytes) (cid1 cid2 : List Char) (s1' s2' : Store)
    (h1 : AddBytes H s1 b = .ok (cid1, s1'))
    (h2 : AddBytes H s2 b = .ok (cid2, s2')) : cid1 = cid2 :=
  addBytes_cid_eq h1 h2

theorem addBytes_deterministic_witness :
    AddBytes listHash [] [3, 5] =
      .ok (['r', 's', 'e', '3', '5', '9', 'a'], [(931226, [0, 3, 5])]) ∧
    AddBytes listHash [(7, [9])] [3, 5] =
      .ok (['r', 's', 'e', '3', '5', '9', 'a'],
        [(931226, [0, 3, 5]), (7, [9])]) ∧
    (['r', 's', 'e', '3', '5', '9', 'a'] : List Char) =
      ['r', 's', 'e', '3', '5', '9', 'a'] :=
  ⟨rfl, rfl,
    addBytes_deterministic listHash [] [(7, [9])] [3, 5] _ _ _ _ rfl rfl⟩

/-- C4: `Cat` on a malformed CID fails with `InvalidCIDError` (decoding
never partially succeeds — the only decode error is `InvalidCIDError`),
`Cat` on a well-formed CID whose digest is absent from the store fails
with `NotFoundError`, and at the HTTP layer any retrieval failure is
reported as status 404 with the `Invalid or not found CID` error payload
and no partial output delivered as a success. -/
theorem cat_error_paths :
    (∀ (l : List Char) (e : CoreErr), decodeCID l = .error e →
      e = .invalidCID) ∧
    (∀ (l : List Char) (e : CoreErr) (H : Bytes → Digest) (fuel : Nat)
      (s : Store), decodeCID l = .error e →
      catCID H fuel s l = .error .invalidCID) ∧
    (∀ (l : List Char) (x : CIDv) (H : Bytes → Digest) (fuel : Nat)
      (s : Store), decodeCID l = .ok x → lookupStore s x.digest = none →
      catCID H fuel s l = .error .notFound) ∧
    (∀ (l : List Char) (H : Bytes → Digest) (fuel : Nat) (s : Store)
      (e : CoreErr), catCID H fuel s l = .error e →
      catEndpoint H fuel s l = ⟨404, .errJson msgInvalidOrNotFound⟩) :=
  ⟨fun _ _ h => decodeCID_error_invalid h,
   fun _ e H fuel s h => catCID_decode_error h H fuel s,
   fun _ x H fuel s h habs => catCID_notFound H fuel h habs,
   fun l H fuel s e h => by unfold catEndpoint; simp only [h]⟩

theorem cat_error_paths_witness :
    decodeCID "not-a-cid".data = .error .invalidCID ∧
    catCID listHash 3 [] "not-a-cid".data = .error .invalidCID ∧
    decodeCID ['r', 's', '5'] = .ok ⟨.raw, .sha2, 5⟩ ∧
    lookupStore [] 5 = none ∧
    catCID listHash 3 [] ['r', 's', '5'] = .error .notFound ∧
    catEndpoint listHash 3 [] "not-a-cid".data =
      ⟨404, .errJson msgInvalidOrNotFound⟩ :=
  ⟨rfl,
   cat_error_paths.2.1 "not-a-cid".data .invalidCID listHash 3 [] rfl,
   rfl, rfl,
   cat_error_paths.2.2.1 ['r', 's', '5'] ⟨.raw, .sha2, 5⟩ listHash 3 [] rfl
     rfl,
   cat_error_paths.2.2.2 "not-a-cid".data listHash 3 [] .invalidCID rfl⟩

/-- C5: Block Store writes are idempotent and deduplicating — `Put` with
an already-present digest verifies the stored length matches (a mismatch
signals `CorruptionError`) and returns success without rewriting the
store; stores with distinct keys keep distinct keys under `AddBytes`, so
a chunk shared by two added objects is stored exactly once; and the leaf
block of every chunk of an added object is present afterwards. -/
theorem blockstore_idempotent_dedup :
    (∀ (s : Store) (d : Digest) (b b0 : Bytes), lookupStore s d = some b0 →
      b0.length = b.length → putBlock s d b = .ok s) ∧
    (∀ (s : Store) (d : Digest) (b b0 : Bytes), lookupStore s d = some b0 →
      b0.length ≠ b.length → putBlock s d b = .error .corruption) ∧
    (∀ (H : Bytes → Digest) (s : Store) (b : Bytes) (cid : List Char)
      (s' : Store), (s.map Prod.fst).Nodup →
      AddBytes H s b = .ok (cid, s') → (s'.map Prod.fst).Nodup) ∧
    (∀ (H : Bytes → Digest), Function.Injective H → ∀ (s : Store),
      wellHashed H s → ∀ (b : Bytes) (cid : List Char) (s' : Store),
      AddBytes H s b = .ok (cid, s') → ∀ c ∈ chunksOf maxChunkSize b,
      lookupStore s' (H (Node.encode (.leaf c))) =
        some (Node.encode (.leaf c))) := by
  refine ⟨?_, ?_, ?_, ?_⟩
  · intro s d b b0 hl heq
    unfold putBlock
    simp only [hl, if_pos heq]
  · intro s d b b0 hl hne
    unfold putBlock
    simp only [hl, if_neg hne]
  · intro H s b cid s' hnd h
    exact addBytes_nodup h hnd
  · intro H hinj s hs b cid s' h c hc
    obtain ⟨es, s1, hpl, hle1, hs1, hes, hres, hpres⟩ :=
      putLeaves_ok hinj (chunksOf maxChunkSize b) s hs
    unfold AddBytes at h
    simp only [hpl] at h
    cases hbl : buildLevel H es.length es s1 with
    | error e => simp [hbl] at h
    | ok q =>
      obtain ⟨d, s2⟩ := q
      simp only [hbl] at h
      cases h
      exact buildLevel_storeLE hbl _ _ (hpres c hc)

theorem blockstore_idempotent_dedup_witness :
    lookupStore [(931226, [0, 3, 5])] 931226 = some [0, 3, 5] ∧
    ([0, 3, 5] : Bytes).length = ([1, 2, 3] : Bytes).length ∧
    putBlock [(931226, [0, 3, 5])] 931226 [1, 2, 3] =
      .ok [(931226, [0, 3, 5])] ∧
    ([0, 3, 5] : Bytes).length ≠ ([1] : Bytes).length ∧
    putBlock [(931226, [0, 3, 5])] 931226 [1] = .error .corruption ∧
    (((([] : Store)).map Prod.fst).Nodup) ∧
    AddBytes listHash [] [3, 5] =
      .ok (['r', 's', 'e', '3', '5', '9', 'a'], [(931226, [0, 3, 5])]) ∧
    (([(931226, [0, 3, 5])] : Store).map Prod.fst).Nodup ∧
    ([3, 5] ∈ chunksOf maxChunkSize ([3, 5] : Bytes)) ∧
    lookupStore [(931226, [0, 3, 5])]
      (listHash (Node.encode (.leaf [3, 5]))) =
      some (Node.encode (.leaf [3, 5])) :=
  ⟨rfl, by decide,
   blockstore_idempotent_dedup.1 [(931226, [0, 3, 5])] 931226 [1, 2, 3]
     [0, 3, 5] rfl (by decide),
   by decide,
   blockstore_idempotent_dedup.2.1 [(931226, [0, 3, 5])] 931226 [1]
     [0, 3, 5] rfl (by decide),
   by decide, rfl,
   blockstore_idempotent_dedup.2.2.1 listHash [] [3, 5]
     ['r', 's', 'e', '3', '5', '9', 'a'] [(931226, [0, 3, 5])]
     (by decide) rfl,
   by decide,
   blockstore_idempotent_dedup.2.2.2 listHash listHash_injective []
     (wellHashed_nil listHash) [3, 5] ['r', 's', 'e', '3', '5', '9', 'a']
     [(931226, [0, 3, 5])] rfl [3, 5] (by decide)⟩

/-- Reachability through one level of links: some link target is reached
by the continuation. -/
def reachesLinks (r : Digest → Bool) : List (Digest × Nat) → Bool
  | [] => false
  | (d, _) :: ls => r d || reachesLinks r ls

/-- Modelled from the spec, section 4.5: the digests a `Cat` traversal
reaches — the root itself and, recursively, every link target of each
internal node along the depth-first walk.  Mirrors the fuel-indexed
retrieval walker `catDigest`. -/
def reachesDigest (H : Bytes → Digest) : Nat → Store → Digest → Digest →
    Bool
  | 0, _, _, _ => false
  | fuel + 1, s, d, t =>
    if d = t then true
    else
      match getBlock H s d with
      | .error _ => false
      | .ok bs =>
        match Node.decode? bs with
        | some (.internal links) =>
          reachesLinks (fun d' => reachesDigest H fuel s d' t) links
        | _ => false

theorem reachesLinks_exists {r : Digest → Bool} :
    ∀ {ls : List (Digest × Nat)}, reachesLinks r ls = true →
      ∃ l ∈ ls, r l.1 = true := by
  intro ls
  induction ls with
  | nil => intro h; simp [reachesLinks] at h
  | cons p rest ih =>
    obtain ⟨dh, m⟩ := p
    intro h
    simp only [reachesLinks, Bool.or_eq_true] at h
    rcases h with h | h
    · exact ⟨(dh, m), by simp, h⟩
    · obtain ⟨l, hl, hr⟩ := ih h
      exact ⟨l, List.mem_cons_of_mem _ hl, hr⟩

theorem catLinksGo_all_ok {f : Digest → Except CoreErr Bytes} :
    ∀ {ls : List (Digest × Nat)} {bs : Bytes}, catLinksGo f ls = .ok bs →
      ∀ l ∈ ls, ∃ b1, f l.1 = .ok b1 := by
  intro ls
  induction ls with
  | nil =>
    intro bs _ l hl
    simp at hl
  | cons p rest ih =>
    obtain ⟨dh, m⟩ := p
    intro bs h l hl
    simp only [catLinksGo] at h
    cases hf : f dh with
    | error e => simp [hf] at h
    | ok b1 =>
      simp only [hf] at h
      cases hl with
      | head => exact ⟨b1, hf⟩
      | tail _ h' =>
        cases hr : catLinksGo f rest with
        | error e => simp [hr] at h
        | ok rbs => exact ih hr l h'

theorem catLinksGo_ok_or_corrupt {f g : Digest → Except CoreErr Bytes}
    (hfg : ∀ d b, f d = .ok b → g d = .ok b ∨ g d = .error .corruption) :
    ∀ (ls : List (Digest × Nat)) (bs : Bytes), catLinksGo f ls = .ok bs →
      catLinksGo g ls = .ok bs ∨ catLinksGo g ls = .error .corruption := by
  intro ls
  induction ls with
  | nil =>
    intro bs h
    left
    exact h
  | cons p rest ih =>
    obtain ⟨dh, m⟩ := p
    intro bs h
    simp only [catLinksGo] at h ⊢
    cases hf : f dh with
    | error e => simp [hf] at h
    | ok b1 =>
      simp only [hf] at h
      rcases hfg dh b1 hf with hgd | hgd
      · simp only [hgd]
        cases hr : catLinksGo f rest with
        | error e => simp [hr] at h
        | ok rbs =>
          simp only [hr] at h
          rcases ih rbs hr with hgr | hgr
          · left
            simp only [hgr]
            exact h
          · right
            simp only [hgr]
      · right
        simp only [hgd]

theorem catLinksGo_corrupt {f g : Digest → Except CoreErr Bytes}
    (hfg : ∀ d b, f d = .ok b → g d = .ok b ∨ g d = .error .corruption) :
    ∀ {ls : List (Digest × Nat)},
      (∀ l ∈ ls, ∃ b1, f l.1 = .ok b1) →
      (∃ l ∈ ls, g l.1 = .error .corruption) →
      catLinksGo g ls = .error .corruption := by
  intro ls
  induction ls with
  | nil =>
    intro _ hcor
    simp at hcor
  | cons p rest ih =>
    obtain ⟨dh, m⟩ := p
    intro hok hcor
    simp only [catLinksGo]
    cases hgd : g dh with
    | error e =>
      obtain ⟨b1, hb1⟩ := hok (dh, m) (by simp)
      rcases hfg dh b1 hb1 with hh | hh
      · rw [hgd] at hh
        exact absurd hh (by simp)
      · rw [hgd] at hh
        simp only [hgd]
        exact hh
    | ok b1' =>
      simp only [hgd]
      obtain ⟨l, hmem, hc⟩ := hcor
      cases hmem with
      | head =>
        rw [hgd] at hc
        exact absurd hc (by simp)
      | tail _ h' =>
        have hrest : catLinksGo g rest = .error .corruption :=
          ih (fun l' hl' => hok l' (List.mem_cons_of_mem _ hl')) ⟨l, h', hc⟩
        simp only [hrest]

theorem catDigest_ok_or_corrupt {H : Bytes → Digest} {s s' : Store}
    {d0 : Digest} {bb0 : Bytes}
    (hagree : ∀ d, d ≠ d0 → lookupStore s' d = lookupStore s d)
    (hl0 : lookupStore s' d0 = some bb0) (hb0 : H bb0 ≠ d0) :
    ∀ (fuel : Nat) (d : Digest) (b : Bytes),
      catDigest H fuel s d = .ok b →
      catDigest H fuel s' d = .ok b ∨
        catDigest H fuel s' d = .error .corruption := by
  intro fuel
  induction fuel with
  | zero =>
    intro d b h
    simp [catDigest] at h
  | succ f ih =>
    intro d b h
    by_cases hd : d = d0
    · subst hd
      right
      exact catDigest_corrupt f hl0 hb0
    · simp only [catDigest] at h ⊢
      cases hg : getBlock H s d with
      | error e => simp [hg] at h
      | ok bs =>
        simp only [hg] at h
        have hg' : getBlock H s' d = .ok bs := by
          unfold getBlock at hg ⊢
          rw [hagree d hd]
          exact hg
        simp only [hg']
        cases hdec : Node.decode? bs with
        | none => simp [hdec] at h
        | some n =>
          simp only [hdec] at h ⊢
          cases n with
          | leaf c =>
            left
            exact h
          | internal links =>
            exact catLinksGo_ok_or_corrupt
              (fun d' b' hb' => ih d' b' hb') links b h

theorem catDigest_reach_corrupt {H : Bytes → Digest} {s s' : Store}
    {d0 : Digest} {bb0 : Bytes}
    (hagree : ∀ d, d ≠ d0 → lookupStore s' d = lookupStore s d)
    (hl0 : lookupStore s' d0 = some bb0) (hb0 : H bb0 ≠ d0) :
    ∀ (fuel : Nat) (d : Digest) (b : Bytes),
      reachesDigest H fuel s d d0 = true → catDigest H fuel s d = .ok b →
      catDigest H fuel s' d = .error .corruption := by
  intro fuel
  induction fuel with
  | zero =>
    intro d b hr _
    simp [reachesDigest] at hr
  | succ f ih =>
    intro d b hr h
    by_cases hd : d = d0
    · subst hd
      exact catDigest_corrupt f hl0 hb0
    · simp only [reachesDigest, if_neg hd] at hr
      simp only [catDigest] at h ⊢
      cases hg : getBlock H s d with
      | error e => simp [hg] at h
      | ok bs =>
        simp only [hg] at h hr
        have hg' : getBlock H s' d = .ok bs := by
          unfold getBlock at hg ⊢
          rw [hagree d hd]
          exact hg
        simp only [hg']
        cases hdec : Node.decode? bs with
        | none => simp [hdec] at h
        | some n =>
          simp only [hdec] at h hr ⊢
          cases n with
          | leaf c => simp at hr
          | internal links =>
            obtain ⟨l, hmem, hrl⟩ := reachesLinks_exists hr
            obtain ⟨b1, hb1⟩ := catLinksGo_all_ok h l hmem
            exact catLinksGo_corrupt
              (fun d' b' hb' => catDigest_ok_or_corrupt hagree hl0 hb0 f d' b' hb')
              (catLinksGo_all_ok h)
              ⟨l, hmem, ih l.1 b1 hrl hb1⟩

/-- C6: tamper detection — if the stored bytes for a digest no longer
hash to that digest, `Get` of that digest fails with `CorruptionError`;
`Cat` rooted at that digest fails with `CorruptionError`; every `Cat`
whose DAG traversal reaches the corrupted digest (at any depth) fails
with `CorruptionError` on the corrupted store; and a successful `Cat`
over a store with one corrupted entry always returns the original
content — wrong content is never returned as a success. -/
theorem tamper_detection :
    (∀ (H : Bytes → Digest) (s : Store) (d : Digest) (b : Bytes),
      lookupStore s d = some b → H b ≠ d →
      getBlock H s d = .error .corruption) ∧
    (∀ (H : Bytes → Digest) (fuel : Nat) (s : Store) (d : Digest)
      (b : Bytes), lookupStore s d = some b → H b ≠ d →
      catDigest H (fuel + 1) s d = .error .corruption) ∧
    (∀ (H : Bytes → Digest) (s s' : Store) (d0 : Digest) (bb0 : Bytes),
      (∀ d, d ≠ d0 → lookupStore s' d = lookupStore s d) →
      lookupStore s' d0 = some bb0 → H bb0 ≠ d0 →
      ∀ (fuel : Nat) (d : Digest) (b : Bytes),
        reachesDigest H fuel s d d0 = true →
        catDigest H fuel s d = .ok b →
        catDigest H fuel s' d = .error .corruption) ∧
    (∀ (H : Bytes → Digest) (s s' : Store) (d0 : Digest),
      (∀ d, d ≠ d0 → lookupStore s' d = lookupStore s d) →
      (∀ bb, lookupStore s' d0 = some bb → H bb ≠ d0) →
      ∀ (fuel : Nat) (d : Digest) (b b' : Bytes),
        catDigest H fuel s d = .ok b → catDigest H fuel s' d = .ok b' →
        b' = b) :=
  ⟨fun _ _ _ _ hl hbad => getBlock_corrupt hl hbad,
   fun _ fuel _ _ _ hl hbad => catDigest_corrupt fuel hl hbad,
   fun _ _ _ _ _ hagree hl0 hb0 fuel d b hr h =>
     catDigest_reach_corrupt hagree hl0 hb0 fuel d b hr h,
   fun _ _ _ _ hagree hbad => catDigest_agree hagree hbad⟩

theorem tamper_detection_witness :
    lookupStore [(5, [0, 9])] 5 = some [0, 9] ∧
    listHash [0, 9] ≠ 5 ∧
    getBlock listHash [(5, [0, 9])] 5 = .error .corruption ∧
    catDigest listHash 1 [(5, [0, 9])] 5 = .error .corruption ∧
    (∀ d, d ≠ 931226 →
      lookupStore [(listHash [1, 931226, 2], [1, 931226, 2]),
        (931226, [0, 9, 9])] d =
      lookupStore [(listHash [1, 931226, 2], [1, 931226, 2]),
        (931226, [0, 3, 5])] d) ∧
    lookupStore [(listHash [1, 931226, 2], [1, 931226, 2]),
      (931226, [0, 9, 9])] 931226 = some [0, 9, 9] ∧
    listHash [0, 9, 9] ≠ 931226 ∧
    reachesDigest listHash 2 [(listHash [1, 931226, 2], [1, 931226, 2]),
      (931226, [0, 3, 5])] (listHash [1, 931226, 2]) 931226 = true ∧
    catDigest listHash 2 [(listHash [1, 931226, 2], [1, 931226, 2]),
      (931226, [0, 3, 5])] (listHash [1, 931226, 2]) = .ok [3, 5] ∧
    catDigest listHash 2 [(listHash [1, 931226, 2], [1, 931226, 2]),
      (931226, [0, 9, 9])] (listHash [1, 931226, 2]) =
      .error .corruption ∧
    (∀ bb, lookupStore [(931226, [0, 3, 5]), (5, [0, 9])] 5 = some bb →
      listHash bb ≠ 5) ∧
    catDigest listHash 1 [(931226, [0, 3, 5]), (5, [0, 3])] 931226 =
      .ok [3, 5] ∧
    catDigest listHash 1 [(931226, [0, 3, 5]), (5, [0, 9])] 931226 =
      .ok [3, 5] ∧
    ([3, 5] : Bytes) = [3, 5] :=
  ⟨rfl, by decide,
   tamper_detection.1 listHash [(5, [0, 9])] 5 [0, 9] rfl (by decide),
   tamper_detection.2.1 listHash 0 [(5, [0, 9])] 5 [0, 9] rfl (by decide),
   (by
     intro d hd
     simp only [lookupStore]
     by_cases h1 : listHash [1, 931226, 2] = d
     · rw [if_pos h1, if_pos h1]
     · rw [if_neg h1, if_neg h1, if_neg (fun h => hd h.symm),
         if_neg (fun h => hd h.symm)]),
   rfl, by decide, rfl, rfl,
   tamper_detection.2.2.1 listHash
     [(listHash [1, 931226, 2], [1, 931226, 2]), (931226, [0, 3, 5])]
     [(listHash [1, 931226, 2], [1, 931226, 2]), (931226, [0, 9, 9])]
     931226 [0, 9, 9]
     (by
       intro d hd
       simp only [lookupStore]
       by_cases h1 : listHash [1, 931226, 2] = d
       · rw [if_pos h1, if_pos h1]
       · rw [if_neg h1, if_neg h1, if_neg (fun h => hd h.symm),
           if_neg (fun h => hd h.symm)])
     rfl (by decide) 2 (listHash [1, 931226, 2]) [3, 5] rfl rfl,
   (by
     intro bb hbb
     rw [show lookupStore [(931226, [0, 3, 5]), (5, [0, 9])] 5 =
       some [0, 9] from rfl] at hbb
     cases hbb
     decide),
   rfl, rfl,
   tamper_detection.2.2.2 listHash [(931226, [0, 3, 5]), (5, [0, 3])]
     [(931226, [0, 3, 5]), (5, [0, 9])] 5
     (by
       intro d hd
       simp only [lookupStore]
       by_cases h1 : (931226 : Nat) = d
       · rw [if_pos h1, if_pos h1]
       · rw [if_neg h1, if_neg h1, if_neg (fun h => hd h.symm),
           if_neg (fun h => hd h.symm)])
     (by
       intro bb hbb
       rw [show lookupStore [(931226, [0, 3, 5]), (5, [0, 9])] 5 =
         some [0, 9] from rfl] at hbb
       cases hbb
       decide)
     1 931226 [3, 5] [3, 5] rfl rfl⟩

/-- C7: `AddBytes` on empty input succeeds and returns the well-defined
CID of the empty object — the encoding of the digest of the empty leaf
block — independent of the starting store (hence identical on every run
under a fixed configuration); and the chunker maps zero-length input to
exactly one empty chunk. -/
theorem empty_input_cid :
    chunksOf maxChunkSize ([] : Bytes) = [[]] ∧
    (∀ (H : Bytes → Digest), Function.Injective H → ∀ (s : Store),
      wellHashed H s → ∃ s', AddBytes H s [] =
        .ok (encodeCID ⟨.raw, .sha2, H [0]⟩, s')) := by
  refine ⟨rfl, ?_⟩
  intro H hinj s hs
  obtain ⟨cid, s', hadd, _, _, _⟩ := addBytes_cat hinj hs []
  obtain ⟨d, hroot, hcid⟩ := addBytes_cid_pure hadd
  have hch : chunksOf maxChunkSize ([] : Bytes) = [[]] := rfl
  rw [hch] at hroot hcid
  simp only [List.map_cons, List.map_nil, List.length_singleton,
    rootDigest] at hroot hcid
  cases hroot
  refine ⟨s', ?_⟩
  rw [hadd, hcid]
  simp [Node.encode]

theorem empty_input_cid_witness :
    Function.Injective listHash ∧ wellHashed listHash [] ∧
    (∃ s', AddBytes listHash [] [] =
      .ok (encodeCID ⟨.raw, .sha2, listHash [0]⟩, s')) :=
  ⟨listHash_injective, wellHashed_nil listHash,
    empty_input_cid.2 listHash listHash_injective [] (wellHashed_nil listHash)⟩

/-- C8 counterexample: the claim says every POST ingestion request with an
empty payload fails with HTTP 400 and returns no CID, but `POST /add/text`
with an empty body succeeds with status 200 and returns a CID (the empty
string is converted to an empty buffer and added). -/
theorem post_empty_payload_counterexample :
    (addTextEndpoint listHash [] []).1.status = 200 ∧
    (addTextEndpoint listHash [] []).1.body = .cidJson ['r', 's', '1'] :=
  ⟨rfl, rfl⟩

/-- C8 amended: only `POST /add/raw` with an empty body and
`POST /add/file` with a missing file field fail with HTTP 400 and a
`\x7b"error": msg\x7d` body, adding nothing (the store is unchanged and no
CID is returned); `POST /add/text` accepts empty payloads; internal add
failures yield HTTP 500 with an error body and an unchanged store. -/
theorem post_error_paths :
    (∀ (H : Bytes → Digest) (s : Store),
      addRawEndpoint H s [] = (⟨400, .errJson "Empty body".data⟩, s)) ∧
    (∀ (H : Bytes → Digest) (s : Store),
      addFileEndpoint H s none =
        (⟨400, .errJson "No file uploaded".data⟩, s)) ∧
    (∀ (H : Bytes → Digest) (s : Store) (b : Bytes) (e : CoreErr),
      AddBytes H s b = .error e → b.length ≠ 0 →
      addRawEndpoint H s b =
        (⟨500, .errJson "Failed to add raw data".data⟩, s)) ∧
    (∀ (H : Bytes → Digest) (s : Store) (body : List Char) (e : CoreErr),
      AddBytes H s (utf8Bytes body) = .error e →
      addTextEndpoint H s body =
        (⟨500, .errJson "Failed to add text".data⟩, s)) := by
  refine ⟨fun _ _ => rfl, fun _ _ => rfl, ?_, ?_⟩
  · intro H s b e h hne
    unfold addRawEndpoint
    rw [if_neg hne]
    simp only [h]
  · intro H s body e h
    unfold addTextEndpoint
    simp only [h]

theorem post_error_paths_witness :
    AddBytes listHash [(931226, [9])] [3, 5] = .error .corruption ∧
    ([3, 5] : Bytes).length ≠ 0 ∧
    addRawEndpoint listHash [(931226, [9])] [3, 5] =
      (⟨500, .errJson "Failed to add raw data".data⟩, [(931226, [9])]) ∧
    AddBytes listHash [(931226, [9])]
      (utf8Bytes [Char.ofNat 3, Char.ofNat 5]) = .error .corruption ∧
    addTextEndpoint listHash [(931226, [9])] [Char.ofNat 3, Char.ofNat 5] =
      (⟨500, .errJson "Failed to add text".data⟩, [(931226, [9])]) ∧
    addRawEndpoint listHash [] [] = (⟨400, .errJson "Empty body".data⟩, []) ∧
    addFileEndpoint listHash [] none =
      (⟨400, .errJson "No file uploaded".data⟩, []) :=
  ⟨rfl, by decide,
   post_error_paths.2.2.1 listHash [(931226, [9])] [3, 5] .corruption rfl
     (by decide),
   rfl,
   post_error_paths.2.2.2 listHash [(931226, [9])]
     [Char.ofNat 3, Char.ofNat 5] .corruption rfl,
   post_error_paths.1 listHash [],
   post_error_paths.2.1 listHash []⟩

theorem stringify_obj_nil : stringify (JVal.obj []) = ['\x7b', '\x7d'] := by
  simp [stringify, stringifyFields]

theorem stringify_null : stringify JVal.null = "null".data := by
  simp [stringify]

/-- C9: `POST /add/json` stores the UTF-8 bytes of `JSON.stringify`
applied to the parsed request body: for every accepted JSON value,
retrieving the returned CID yields the canonical re-serialisation of the
parsed value; since for example the body `" \x7b\x7d "` parses to the empty
object whose canonical serialisation is `"\x7b\x7d"`, the retrieved bytes
differ from the raw bytes such a client sent. -/
theorem json_canonical_serialization :
    (∀ (H : Bytes → Digest), Function.Injective H → ∀ (s : Store),
      wellHashed H s → ∀ (v : JVal) (fuel : Nat),
      (utf8Bytes (stringify v)).length + 2 ≤ fuel →
      ∃ cid s', addJsonEndpoint H s v = (⟨200, .cidJson cid⟩, s') ∧
        catCID H fuel s' cid = .ok (utf8Bytes (stringify v))) ∧
    utf8Bytes (stringify (JVal.obj [])) ≠ utf8Bytes (" \x7b\x7d ".data) := by
  constructor
  · intro H hinj s hs v fuel hfuel
    obtain ⟨cid, s', hadd, _, _, hcat⟩ :=
      addBytes_cat hinj hs (utf8Bytes (stringify v))
    refine ⟨cid, s', ?_, hcat fuel hfuel⟩
    unfold addJsonEndpoint
    simp only [hadd]
  · rw [stringify_obj_nil]
    decide

theorem json_canonical_serialization_witness :
    Function.Injective listHash ∧ wellHashed listHash [] ∧
    (utf8Bytes (stringify JVal.null)).length + 2 ≤ 6 ∧
    (∃ cid s', addJsonEndpoint listHash [] JVal.null =
      (⟨200, .cidJson cid⟩, s') ∧
      catCID listHash 6 s' cid = .ok (utf8Bytes (stringify JVal.null))) :=
  ⟨listHash_injective, wellHashed_nil listHash,
   by rw [stringify_null]; decide,
   json_canonical_serialization.1 listHash listHash_injective []
     (wellHashed_nil listHash) JVal.null 6 (by rw [stringify_null]; decide)⟩

/-- C10: the recent-CIDs tracking keeps its bounds under every operation —
one `trackCID` call prepends the CID once, bumps `totalCIDsStored` by one
and keeps at most `MAX_RECENT` entries; after any sequence of tracked
adds the list equals the most-recent-first prefix of the reversed add
sequence followed by the old entries, truncated to `MAX_RECENT`, with
`totalCIDsStored` increased by exactly the number of tracked CIDs; and
`/status` reports a list equal in value to the internal array (the model
cannot distinguish the `slice()` copy from the array itself). -/
theorem recent_cids_tracking :
    (∀ (st : Stats) (c : List Char), st.recentCIDs.length ≤ MAX_RECENT →
      (trackCID st c).recentCIDs = (c :: st.recentCIDs).take MAX_RECENT ∧
      (trackCID st c).totalCIDsStored = st.totalCIDsStored + 1) ∧
    (∀ (st : Stats) (cids : List (List Char)),
      st.recentCIDs.length ≤ MAX_RECENT →
      (cids.foldl trackCID st).recentCIDs =
        (cids.reverse ++ st.recentCIDs).take MAX_RECENT ∧
      (cids.foldl trackCID st).totalCIDsStored =
        st.totalCIDsStored + cids.length ∧
      (cids.foldl trackCID st).recentCIDs.length ≤ MAX_RECENT) ∧
    (∀ (tr : Nat) (st : Stats),
      (statusEndpoint tr st).recentCIDs = st.recentCIDs) := by
  refine ⟨trackCID_recent, fun st cids h => foldl_trackCID cids st h, ?_⟩
  intro tr st
  simp only [statusEndpoint]
  exact List.take_of_length_le (Nat.le_refl _)

theorem recent_cids_tracking_witness :
    ((⟨0, []⟩ : Stats).recentCIDs.length ≤ MAX_RECENT) ∧
    (([['a'], ['b']].foldl trackCID (⟨0, []⟩ : Stats)).recentCIDs =
      ([['a'], ['b']].reverse ++ ([] : List (List Char))).take MAX_RECENT ∧
     ([['a'], ['b']].foldl trackCID (⟨0, []⟩ : Stats)).totalCIDsStored =
      0 + ([['a'], ['b']] : List (List Char)).length ∧
     ([['a'], ['b']].foldl trackCID (⟨0, []⟩ : Stats)).recentCIDs.length ≤
      MAX_RECENT) :=
  ⟨by decide,
   recent_cids_tracking.2.1 ⟨0, []⟩ [['a'], ['b']] (by decide)⟩
